import Mathlib

/-!
Shallow embedding of the bftree storage engine: the page codec
(`NodeMeta`, `KVMeta`, `Page`), leaf pages with disk round-trip, mini
pages, inner-node routing and the tree facade, together with theorems
checking the specification's claims against these definitions.

Byte strings are `List Nat` with each element a byte value; machine
integers are `Nat` with explicit `% 2^w` where the source truncates.
-/

namespace BfTreeCheck

/-- Lexicographic comparison of byte strings, the ordering of `[u8]` slices
used by `cmp` in the source. -/
def lexCmp : List Nat → List Nat → Ordering
  | [], [] => Ordering.eq
  | [], _ :: _ => Ordering.lt
  | _ :: _, [] => Ordering.gt
  | a :: as, b :: bs =>
    if a < b then Ordering.lt
    else if b < a then Ordering.gt
    else lexCmp as bs

/-- Non-strict lexicographic order derived from `lexCmp`. -/
def lexLe (a b : List Nat) : Prop := lexCmp a b ≠ Ordering.gt

/-- Strict lexicographic order derived from `lexCmp`. -/
def lexLt (a b : List Nat) : Prop := lexCmp a b = Ordering.lt

instance (a b : List Nat) : Decidable (lexLe a b) := by unfold lexLe; infer_instance

instance (a b : List Nat) : Decidable (lexLt a b) := by unfold lexLt; infer_instance

theorem lexCmp_eq_iff : ∀ {a b : List Nat}, lexCmp a b = Ordering.eq ↔ a = b := by
  intro a
  induction a with
  | nil => intro b; cases b <;> simp [lexCmp]
  | cons x xs ih =>
    intro b
    cases b with
    | nil => simp [lexCmp]
    | cons y ys =>
      by_cases h1 : x < y
      · simp [lexCmp, h1]; omega
      · by_cases h2 : y < x
        · simp [lexCmp, h1, h2]; omega
        · have hxy : x = y := by omega
          simp [lexCmp, h1, h2, hxy, ih]

theorem lexCmp_self (a : List Nat) : lexCmp a a = Ordering.eq :=
  lexCmp_eq_iff.mpr rfl

theorem lexCmp_swap : ∀ a b : List Nat, lexCmp b a = (lexCmp a b).swap := by
  intro a
  induction a with
  | nil => intro b; cases b <;> simp [lexCmp, Ordering.swap]
  | cons x xs ih =>
    intro b
    cases b with
    | nil => simp [lexCmp, Ordering.swap]
    | cons y ys =>
      by_cases h1 : x < y
      · have h2 : ¬ y < x := by omega
        simp [lexCmp, h1, h2, Ordering.swap]
      · by_cases h2 : y < x
        · simp [lexCmp, h1, h2, Ordering.swap]
        · simp [lexCmp, h1, h2, ih]

theorem lexLe_refl (a : List Nat) : lexLe a a := by
  simp [lexLe, lexCmp_self]

theorem lexLe_of_not_lt {a b : List Nat} (h : lexCmp a b ≠ Ordering.lt) : lexLe b a := by
  unfold lexLe
  rw [lexCmp_swap]
  cases hc : lexCmp a b <;> simp [Ordering.swap] <;> simp [hc] at h ⊢

theorem lexLe_total (a b : List Nat) : lexLe a b ∨ lexLe b a := by
  by_cases h : lexCmp a b = Ordering.gt
  · right
    unfold lexLe
    rw [lexCmp_swap, h]
    simp [Ordering.swap]
  · left; exact h

theorem lexLe_trans : ∀ {a b c : List Nat}, lexLe a b → lexLe b c → lexLe a c := by
  intro a
  induction a with
  | nil =>
    intro b c _ _
    cases c <;> simp [lexLe, lexCmp]
  | cons x xs ih =>
    intro b c hab hbc
    cases b with
    | nil => simp [lexLe, lexCmp] at hab
    | cons y ys =>
      cases c with
      | nil => simp [lexLe, lexCmp] at hbc
      | cons z zs =>
        simp only [lexLe, lexCmp] at hab hbc ⊢
        by_cases h1 : x < y
        · by_cases h2 : y < z
          · have : x < z := by omega
            simp [this]
          · by_cases h3 : z < y
            · simp [h2, h3] at hbc
            · have hyz : y = z := by omega
              simp [h1, ← hyz]
        · by_cases h1' : y < x
          · simp [h1, h1'] at hab
          · have hxy : x = y := by omega
            by_cases h2 : y < z
            · have : x < z := by omega
              simp [this]
            · by_cases h3 : z < y
              · simp [h2, h3] at hbc
              · have hyz : y = z := by omega
                simp [h1, h2, hxy, hyz] at hab hbc ⊢
                subst hxy hyz
                exact ih hab hbc

theorem lexLt_of_gt {a b : List Nat} (h : lexCmp a b = Ordering.gt) : lexLt b a := by
  unfold lexLt
  rw [lexCmp_swap, h]
  rfl

theorem gt_of_lexLt {a b : List Nat} (h : lexLt b a) : lexCmp a b = Ordering.gt := by
  unfold lexLt at h
  rw [lexCmp_swap, h]
  rfl

theorem lexLe_of_lexLt {a b : List Nat} (h : lexLt a b) : lexLe a b := by
  unfold lexLt at h
  unfold lexLe
  rw [h]
  simp

theorem not_lexLe_of_lexLt {a b : List Nat} (h : lexLt a b) : ¬ lexLe b a := by
  intro hle
  exact hle (gt_of_lexLt h)

/-- Transitivity mixing the strict and non-strict orders: from `t > a`
(`lexCmp a t = gt` seen from `a`) and `a ≤ b` conclude `lexCmp b t = gt`. -/
theorem gt_trans_le {a b t : List Nat} (h : lexCmp a t = Ordering.gt)
    (hab : lexLe a b) : lexCmp b t = Ordering.gt := by
  have h1 : lexLt t a := lexLt_of_gt h
  by_contra hne
  have h2 : lexLe b t := hne
  exact not_lexLe_of_lexLt h1 (lexLe_trans hab h2)

/-- From `t < a` and `a ≤ b` conclude `t < b`. -/
theorem lt_trans_le {t a b : List Nat} (h : lexLt t a) (hab : lexLe a b) : lexLt t b := by
  rcases hc : lexCmp t b with _ | _ | _
  · exact hc
  · exfalso
    have : t = b := lexCmp_eq_iff.mp hc
    subst this
    exact not_lexLe_of_lexLt h hab
  · exfalso
    have : lexLt b t := lexLt_of_gt hc
    exact not_lexLe_of_lexLt this (lexLe_trans (lexLe_of_lexLt h) hab)

/-! Little-endian byte encoding helpers and the disk model. -/

/-- Little-endian encoding of `n` into `w` bytes, each `< 256`. -/
def toLE : Nat → Nat → List Nat
  | 0, _ => []
  | w + 1, n => n % 256 :: toLE w (n / 256)

/-- Little-endian decoding of a byte list. -/
def fromLE : List Nat → Nat
  | [] => 0
  | b :: bs => b + 256 * fromLE bs

theorem toLE_length : ∀ w n, (toLE w n).length = w := by
  intro w
  induction w with
  | zero => intro n; rfl
  | succ w ih => intro n; simp [toLE, ih]

theorem fromLE_toLE : ∀ w n, fromLE (toLE w n) = n % 256 ^ w := by
  intro w
  induction w with
  | zero => intro n; simp [toLE, fromLE, Nat.mod_one]
  | succ w ih =>
    intro n
    have h := Nat.mod_add_div n 256
    calc fromLE (toLE (w + 1) n) = n % 256 + 256 * (n / 256 % 256 ^ w) := by
          simp [toLE, fromLE, ih]
      _ = n % 256 ^ (w + 1) := by
          rw [pow_succ, mul_comm (256 ^ w) 256, Nat.mod_mul]

/-- Disk model: a byte-addressed store. -/
def Disk : Type := Nat → Nat

/-- Store with every byte zero. -/
def zeroDisk : Disk := fun _ => 0

/-- Writes the byte list `bs` at address `off`, as a sequence of
`write_all` calls does. -/
def writeBytes (d : Disk) (off : Nat) (bs : List Nat) : Disk :=
  fun i => if off ≤ i ∧ i - off < bs.length then bs.getD (i - off) 0 else d i

/-- Reads `n` bytes starting at address `off`. -/
def readBytes (d : Disk) (off n : Nat) : List Nat :=
  (List.range n).map fun i => d (off + i)

theorem readBytes_length (d : Disk) (off n : Nat) : (readBytes d off n).length = n := by
  simp [readBytes]

theorem readBytes_writeBytes (d : Disk) (off : Nat) (bs : List Nat) (a n : Nat)
    (h : a + n ≤ bs.length) :
    readBytes (writeBytes d off bs) (off + a) n = (bs.drop a).take n := by
  apply List.ext_getElem
  · simp [readBytes]
    omega
  · intro i h1 h2
    have hin : i < n := by simpa [readBytes] using h1
    simp only [readBytes, List.getElem_map, List.getElem_range, writeBytes]
    have hoff : off ≤ off + a + i := by omega
    have hlt : off + a + i - off < bs.length := by omega
    simp only [hoff, hlt, and_self, if_true]
    have heq2 : off + a + i - off = a + i := by omega
    rw [heq2]
    rw [List.getD_eq_getElem bs 0 (by omega)]
    rw [List.getElem_take, List.getElem_drop]

/-! Record types and metadata codecs, from src/page.rs. -/

/-- Record tag stored in the two `type_flag` bits (`RecordType` in src/page.rs). -/
inductive RecordType where
  | Insert
  | Cache
  | Tombstone
  | Phantom
deriving DecidableEq, Repr

/-- Conversion `RecordType → u8` (`impl Into<u8> for RecordType`). -/
def RecordType.toU8 : RecordType → Nat
  | .Insert => 0
  | .Cache => 1
  | .Tombstone => 2
  | .Phantom => 3

/-- NodeMeta from src/page.rs: the 12-byte page header. `node_size` and
`record_count` are `u16` values, `leaf` a `u64` of which 48 bits are stored. -/
structure NodeMeta where
  node_size : Nat
  page_type : Bool
  split_flag : Bool
  record_count : Nat
  leaf : Nat
deriving DecidableEq, Repr

/-- Page kind tag (`PageType` in src/page.rs). -/
inductive PageType where
  | MiniPage
  | LeafPage
deriving DecidableEq, Repr

/-- NodeMeta::new. The `u16`/`u64` parameter types are reflected by
reduction modulo the type's width. -/
def NodeMeta.new (node_size : Nat) (page_type : PageType) (split_flag : Bool)
    (record_count : Nat) (leaf : Nat) : NodeMeta :=
  { node_size := node_size % 65536
    page_type := page_type = PageType.MiniPage
    split_flag := split_flag
    record_count := record_count % 65536
    leaf := leaf % 2 ^ 64 }

/-- NodeMeta::serialize: 12 bytes little-endian; `page_type` and
`split_flag` are packed into the flags byte as `(page_type << 1) | split_flag`,
byte 3 is padding, and only the low 6 bytes of `leaf` are written. -/
def NodeMeta.serialize (m : NodeMeta) : List Nat :=
  toLE 2 m.node_size ++
    [2 * (cond m.page_type 1 0) + cond m.split_flag 1 0, 0] ++
    toLE 2 m.record_count ++
    toLE 6 m.leaf

/-- NodeMeta::deserialize from a 12-byte buffer. -/
def NodeMeta.deserialize (bs : List Nat) : NodeMeta :=
  { node_size := fromLE (bs.take 2)
    page_type := (bs.getD 2 0) / 2 % 2 != 0
    split_flag := (bs.getD 2 0) % 2 != 0
    record_count := fromLE ((bs.drop 4).take 2)
    leaf := fromLE ((bs.drop 6).take 6) }

theorem nodeMeta_serialize_length (m : NodeMeta) : m.serialize.length = 12 := by
  simp [NodeMeta.serialize, toLE_length]

/-- Round-trip of the node-header codec for in-range field values. -/
theorem nodeMeta_deserialize_serialize (m : NodeMeta)
    (h1 : m.node_size < 65536) (h2 : m.record_count < 65536) (h3 : m.leaf < 2 ^ 48) :
    NodeMeta.deserialize m.serialize = m := by
  obtain ⟨ns, pt, sf, rc, lf⟩ := m
  simp only [NodeMeta.serialize, NodeMeta.deserialize] at *
  simp only [toLE, List.cons_append, List.nil_append]
  simp only [List.take, List.drop, List.getD, List.get?, fromLE]
  congr 1
  · show ns % 256 + 256 * (ns / 256 % 256 + 256 * 0) = ns
    omega
  · cases pt <;> cases sf <;> simp
  · cases pt <;> cases sf <;> simp
  · show rc % 256 + 256 * (rc / 256 % 256 + 256 * 0) = rc
    omega
  · show lf % 256 + 256 * (lf / 256 % 256 + 256 * (lf / 256 / 256 % 256 + 256 *
      (lf / 256 / 256 / 256 % 256 + 256 * (lf / 256 / 256 / 256 / 256 % 256 + 256 *
        (lf / 256 / 256 / 256 / 256 / 256 % 256 + 256 * 0))))) = lf
    omega

/-- KVMeta from src/page.rs: the 8-byte per-record metadata. Field widths:
`key_size` and `value_size` 14 bits, `offset` 16, `type_flag` 2, `is_fence` 1,
`ref_flag` 2, `lookahead` nominally 16. -/
structure KVMeta where
  key_size : Nat
  value_size : Nat
  offset : Nat
  type_flag : Nat
  is_fence : Bool
  ref_flag : Nat
  lookahead : Nat
deriving DecidableEq, Repr

instance : Inhabited KVMeta := ⟨⟨0, 0, 0, 0, false, 0, 0⟩⟩

/-- KVMeta::new. The masks `& 0x3FFF` and `& 0x03` appear as `% 16384` and
`% 4`; the `u16` parameters are reflected by `% 65536`. -/
def KVMeta.new (key_size value_size offset type_flag : Nat) (is_fence : Bool)
    (ref_flag lookahead : Nat) : KVMeta :=
  { key_size := key_size % 65536 % 16384
    value_size := value_size % 65536 % 16384
    offset := offset % 65536
    type_flag := type_flag % 256 % 4
    is_fence := is_fence
    ref_flag := ref_flag % 256 % 4
    lookahead := lookahead % 65536 }

/-- KVMeta::serialize: the fields are OR-ed into a `u64` at bit offsets
`{key_size:0, value_size:14, offset:28, type_flag:44, is_fence:46, ref_flag:47,
lookahead:49}` and written as 8 little-endian bytes. The OR of the disjoint
masked fields equals their sum; the `u64` shift `lookahead << 49` keeps only
the low 64 bits, written here as `% 2 ^ 64`. -/
def KVMeta.serialize (m : KVMeta) : List Nat :=
  toLE 8 (m.key_size % 16384 + m.value_size % 16384 * 2 ^ 14 + m.offset % 65536 * 2 ^ 28 +
    m.type_flag % 4 * 2 ^ 44 + (cond m.is_fence 1 0) * 2 ^ 46 + m.ref_flag % 4 * 2 ^ 47 +
    m.lookahead * 2 ^ 49 % 2 ^ 64)

/-- KVMeta::deserialize: reads the packed `u64` and extracts each field by
shift and mask. -/
def KVMeta.deserialize (bs : List Nat) : KVMeta :=
  let packed := fromLE bs
  { key_size := packed % 16384
    value_size := packed / 2 ^ 14 % 16384
    offset := packed / 2 ^ 28 % 65536
    type_flag := packed / 2 ^ 44 % 4
    is_fence := packed / 2 ^ 46 % 2 != 0
    ref_flag := packed / 2 ^ 47 % 4
    lookahead := packed / 2 ^ 49 % 65536 }

theorem kvMeta_serialize_length (m : KVMeta) : m.serialize.length = 8 := by
  simp [KVMeta.serialize, toLE_length]

/-- Round-trip of the record-meta codec for in-range fields; only 15 bits of
`lookahead` survive the 64-bit packing, hence the `< 32768` bound. -/
theorem kvMeta_deserialize_serialize (m : KVMeta)
    (h1 : m.key_size < 16384) (h2 : m.value_size < 16384) (h3 : m.offset < 65536)
    (h4 : m.type_flag < 4) (h5 : m.ref_flag < 4) (h6 : m.lookahead < 32768) :
    KVMeta.deserialize m.serialize = m := by
  obtain ⟨ks, vs, off, tf, fence, rf, la⟩ := m
  simp only at h1 h2 h3 h4 h5 h6
  simp only [KVMeta.serialize, KVMeta.deserialize]
  have hla : la * 2 ^ 49 % 2 ^ 64 = la * 2 ^ 49 := by
    apply Nat.mod_eq_of_lt
    omega
  rw [fromLE_toLE]
  have h256 : (256 : Nat) ^ 8 = 2 ^ 64 := by norm_num
  rw [h256, hla, Nat.mod_eq_of_lt h1, Nat.mod_eq_of_lt h2, Nat.mod_eq_of_lt h3,
    Nat.mod_eq_of_lt h4, Nat.mod_eq_of_lt h5]
  generalize he : (cond fence 1 0 : Nat) = e
  have hfence : e ≤ 1 := by cases fence <;> simp at he <;> omega
  have hlt : ks + vs * 2 ^ 14 + off * 2 ^ 28 +
      tf * 2 ^ 44 + e * 2 ^ 46 + rf * 2 ^ 47 + la * 2 ^ 49 < 2 ^ 64 := by
    omega
  rw [Nat.mod_eq_of_lt hlt]
  generalize hp : ks + vs * 2 ^ 14 + off * 2 ^ 28 +
    tf * 2 ^ 44 + e * 2 ^ 46 + rf * 2 ^ 47 + la * 2 ^ 49 = packed
  have e1 : packed % 16384 = ks := by omega
  have e2 : packed / 2 ^ 14 % 16384 = vs := by omega
  have e3 : packed / 2 ^ 28 % 65536 = off := by omega
  have e4 : packed / 2 ^ 44 % 4 = tf := by omega
  have e5 : packed / 2 ^ 46 % 2 = e := by omega
  have e6 : packed / 2 ^ 47 % 4 = rf := by omega
  have e7 : packed / 2 ^ 49 % 65536 = la := by omega
  simp only [KVMeta.mk.injEq]
  refine ⟨e1, e2, e3, e4, ?_, e6, e7⟩
  rw [e5]
  cases fence <;> simp at he <;> simp [← he]


/-! The generic page (src/page.rs). -/

/-- Slice `l[start .. start + len]` of a byte buffer. -/
def slice (l : List Nat) (start len : Nat) : List Nat := (l.drop start).take len

/-- Page from src/page.rs: header, record metas, and the data heap. -/
structure Page where
  node_meta : NodeMeta
  kv_metas : List KVMeta
  data : List Nat
deriving DecidableEq

/-- Page::new: empty record metas and data heap. -/
def Page.new (node_meta : NodeMeta) : Page := ⟨node_meta, [], []⟩

/-- Referenced key of a record meta: `data[offset .. offset + key_size]`. -/
def keyAt (data : List Nat) (m : KVMeta) : List Nat := slice data m.offset m.key_size

/-- Referenced value of a record meta: the bytes right after the key. -/
def valueAt (data : List Nat) (m : KVMeta) : List Nat :=
  slice data (m.offset + m.key_size) m.value_size

/-- Loop of Page::binary_search over `[left, right)`. On a hit the matched
meta's `ref_flag` is set to 1 and a copy of the value is returned; the `gt`
branch breaks when `mid == 0`. The fuel argument only bounds the iteration
count; `right - left` shrinks every round, so any fuel above the initial
`right - left` is never exhausted. -/
def bsGo (p : Page) (target : List Nat) : Nat → Nat → Nat → Page × Option (List Nat)
  | 0, _, _ => (p, none)
  | fuel + 1, left, right =>
    if left < right then
      let mid := (left + right) / 2
      let m := p.kv_metas.getD mid default
      match lexCmp (keyAt p.data m) target with
      | Ordering.eq =>
        ({ p with kv_metas := p.kv_metas.set mid { m with ref_flag := 1 } },
          some (valueAt p.data m))
      | Ordering.lt => bsGo p target fuel (mid + 1) right
      | Ordering.gt => if mid = 0 then (p, none) else bsGo p target fuel left mid
    else (p, none)

/-- Page::binary_search. Returns the page (mutated only on a hit) together
with the found value. -/
def Page.binary_search (p : Page) (target : List Nat) : Page × Option (List Nat) :=
  bsGo p target (p.kv_metas.length + 1) 0 p.kv_metas.length

/-- Loop of Rust core's branchless `slice::binary_search_by`: narrows
`[base, base + size)` keeping `size ≥ 1`; fuel above the initial size is
never exhausted. -/
def bsbGo (cmpAt : Nat → Ordering) : Nat → Nat → Nat → Nat
  | 0, base, _ => base
  | fuel + 1, base, size =>
    if 1 < size then
      let half := size / 2
      let mid := base + half
      let base2 := if cmpAt mid = Ordering.gt then base else mid
      bsbGo cmpAt fuel base2 (size - half)
    else base

/-- Rust `slice::binary_search_by` (comparator evaluated at an index):
`Sum.inl i` is `Ok(i)` (hit), `Sum.inr i` is `Err(i)` (insertion position). -/
def binarySearchBy (cmpAt : Nat → Ordering) (len : Nat) : Nat ⊕ Nat :=
  if len = 0 then Sum.inr 0
  else
    let base := bsbGo cmpAt len 0 len
    match cmpAt base with
    | Ordering.eq => Sum.inl base
    | Ordering.lt => Sum.inr (base + 1)
    | Ordering.gt => Sum.inr base

/-- Insertion position used by Page::insert:
`binary_search_by(..).unwrap_or_else(|e| e)`. -/
def insertPosOf (cmpAt : Nat → Ordering) (len : Nat) : Nat :=
  match binarySearchBy cmpAt len with
  | Sum.inl i => i
  | Sum.inr i => i

/-- Two-bit tag passed to KVMeta::new: the supplied type, defaulting to
`Insert` (0). -/
def insertTypeFlag : Option RecordType → Nat
  | some r => r.toU8
  | none => 0

/-- Page::insert. Rejects when
`kv_metas.len() * 8 + data.len() + key.len() + value.len() + 12` exceeds
`node_size` (the projected size without the new record's own meta); otherwise
appends `key ++ value` to the heap, builds the meta, splices it at the
binary-search position over the referenced keys, and bumps `record_count`
(a `u16`, hence `% 65536`). -/
def Page.insert (p : Page) (key value : List Nat) (record_type : Option RecordType) :
    Page × Bool :=
  let record_type_u8 : Nat := insertTypeFlag record_type
  let kv_meta_size := 8
  let total_size := p.kv_metas.length * kv_meta_size + p.data.length + key.length +
    value.length + 12
  if total_size > p.node_meta.node_size then (p, false)
  else
    let offset := p.data.length % 65536
    let data2 := p.data ++ key ++ value
    let new_kv := KVMeta.new key.length value.length offset record_type_u8 false 0 0
    let pos := insertPosOf
      (fun i => lexCmp (keyAt data2 (p.kv_metas.getD i default)) key) p.kv_metas.length
    ({ node_meta :=
        { p.node_meta with record_count := (p.node_meta.record_count + 1) % 65536 }
       kv_metas := p.kv_metas.insertIdx pos new_kv
       data := data2 }, true)

/-! Configuration constants (src/config.rs). -/

def INNER_NODE_SIZE : Nat := 4096

def LEAF_PAGE_SIZE : Nat := 4096

def MINI_PAGE_MIN_SIZE : Nat := 64

def MINI_PAGE_MAX_SIZE : Nat := 4096

/-! Leaf pages (src/leaf_page.rs). -/

/-- LeafPage wraps a Page (src/leaf_page.rs). -/
structure LeafPage where
  page : Page
deriving DecidableEq

/-- On-disk image written by LeafPage::flush_to_disk: header, metas, heap,
contiguously. -/
def serializePage (p : Page) : List Nat :=
  p.node_meta.serialize ++ (p.kv_metas.map KVMeta.serialize).flatten ++ p.data

/-- LeafPage::flush_to_disk at `offset`: seek and write header, each record
meta, then the data heap. -/
def LeafPage.flush_to_disk (l : LeafPage) (d : Disk) (offset : Nat) : Disk :=
  writeBytes d offset (serializePage l.page)

/-- LeafPage::load_from_disk: read the 12-byte header, then `record_count`
8-byte metas, then exactly the total key+value bytes given by the metas. -/
def LeafPage.load_from_disk (d : Disk) (disk_offset : Nat) : LeafPage :=
  let node_meta := NodeMeta.deserialize (readBytes d disk_offset 12)
  let kv_metas := (List.range node_meta.record_count).map fun i =>
    KVMeta.deserialize (readBytes d (disk_offset + 12 + 8 * i) 8)
  let total_kv_data_size := (kv_metas.map fun kv => kv.key_size + kv.value_size).sum
  let data := readBytes d (disk_offset + 12 + 8 * node_meta.record_count) total_kv_data_size
  ⟨⟨node_meta, kv_metas, data⟩⟩

/-- LeafPage::binary_search, delegated to the page. -/
def LeafPage.binary_search (l : LeafPage) (key : List Nat) : LeafPage × Option (List Nat) :=
  let r := l.page.binary_search key
  (⟨r.1⟩, r.2)

/-- LeafPage::insert, delegated to the page. -/
def LeafPage.insert (l : LeafPage) (key value : List Nat) (rt : Option RecordType) :
    LeafPage × Bool :=
  let r := l.page.insert key value rt
  (⟨r.1⟩, r.2)

/-- LeafPage::can_fit: projected size (without the new record's own meta)
against the constant leaf size. -/
def LeafPage.can_fit (l : LeafPage) (key value : List Nat) : Bool :=
  l.page.kv_metas.length * 8 + l.page.data.length + key.length + value.length + 12 ≤
    LEAF_PAGE_SIZE

/-- LeafPage::split. The receiver is returned first, reflecting the `&mut self`
borrow: the body only reads it, so it comes back unchanged, and no disk access
occurs. `mid = len / 2`; records `[0, mid)` are re-inserted into a fresh left
page and `[mid, len)` into a fresh right page, both created by
`Page::new(self.node_meta.clone())`; the split key is the key of record `mid`. -/
def LeafPage.split (l : LeafPage) : LeafPage × (LeafPage × LeafPage × List Nat) :=
  let mid := l.page.kv_metas.length / 2
  let split_key := keyAt l.page.data (l.page.kv_metas.getD mid default)
  let start := (Page.new l.page.node_meta, Page.new l.page.node_meta)
  let fin := l.page.kv_metas.enum.foldl
    (fun (acc : Page × Page) (ikv : Nat × KVMeta) =>
      let key := keyAt l.page.data ikv.2
      let val := valueAt l.page.data ikv.2
      if ikv.1 < mid then ((acc.1.insert key val none).1, acc.2)
      else (acc.1, (acc.2.insert key val none).1))
    start
  (l, (⟨fin.1⟩, ⟨fin.2⟩, split_key))

/-! Mini pages (src/mini_page.rs). -/

/-- MiniPage wraps a Page (src/mini_page.rs). -/
structure MiniPage where
  page : Page
deriving DecidableEq

/-- MiniPage::new: minimum-sized mini-page fronting the leaf at
`leaf_offset`. -/
def MiniPage.new (leaf_offset : Nat) : MiniPage :=
  ⟨Page.new (NodeMeta.new MINI_PAGE_MIN_SIZE PageType.MiniPage false 0 leaf_offset)⟩

/-- MiniPage::binary_search, delegated to the page. -/
def MiniPage.binary_search (m : MiniPage) (key : List Nat) : MiniPage × Option (List Nat) :=
  let r := m.page.binary_search key
  (⟨r.1⟩, r.2)

/-- MiniPage::insert, delegated to the page. -/
def MiniPage.insert (m : MiniPage) (key value : List Nat) (rt : Option RecordType) :
    MiniPage × Bool :=
  let r := m.page.insert key value rt
  (⟨r.1⟩, r.2)

/-- MiniPage::next_size: `saturating_mul(2)` on the `u16` size, or 0 when the
doubled size would pass `MINI_PAGE_MAX_SIZE`. -/
def MiniPage.next_size (m : MiniPage) : Nat :=
  let current := m.page.node_meta.node_size
  let next := min (current * 2) 65535
  if next ≤ MINI_PAGE_MAX_SIZE then next else 0

/-- MiniPage::resize: a new node meta with the new size (as `u16`), metas and
heap copied verbatim. -/
def MiniPage.resize (m : MiniPage) (new_size : Nat) : MiniPage :=
  ⟨⟨NodeMeta.new new_size PageType.MiniPage m.page.node_meta.split_flag
      m.page.node_meta.record_count m.page.node_meta.leaf,
    m.page.kv_metas, m.page.data⟩⟩

/-! Inner nodes (src/inner_node.rs). -/

/-- InnerNode: sorted separator keys plus child page ids. -/
structure InnerNode where
  keys : List (List Nat)
  children : List Nat
deriving DecidableEq

/-- Loop of InnerNode::find_child_page_id over `[left, right)`; compares the
target against the separator at `mid`. Fuel above the initial `right - left`
is never exhausted. -/
def icGo (keys : List (List Nat)) (key : List Nat) : Nat → Nat → Nat → Nat ⊕ Nat
  | 0, left, _ => Sum.inr left
  | fuel + 1, left, right =>
    if left < right then
      let mid := (left + right) / 2
      match lexCmp key (keys.getD mid []) with
      | Ordering.lt => icGo keys key fuel left mid
      | Ordering.eq => Sum.inl mid
      | Ordering.gt => icGo keys key fuel (mid + 1) right
    else Sum.inr left

/-- InnerNode::find_child_page_id: empty separators route to the single
child; a hit at `mid` routes to `children[mid + 1]`; a miss with final `left`
routes to `children[left]` (`children.first()` when `left == 0`). -/
def InnerNode.find_child_page_id (n : InnerNode) (key : List Nat) : Option Nat :=
  if n.keys.isEmpty then n.children[0]?
  else
    match icGo n.keys key (n.keys.length + 1) 0 n.keys.length with
    | Sum.inl mid => n.children[mid + 1]?
    | Sum.inr left => if left = 0 then n.children[0]? else n.children[left]?

/-- InnerNode::insert: separator at its binary-search position `pos`, child at
`pos + 1`. -/
def InnerNode.insert (n : InnerNode) (key : List Nat) (child_page_id : Nat) : InnerNode :=
  let pos := insertPosOf (fun i => lexCmp (n.keys.getD i []) key) n.keys.length
  ⟨n.keys.insertIdx pos key, n.children.insertIdx (pos + 1) child_page_id⟩

/-- InnerNode::mock_single_child: no separators, one child. -/
def InnerNode.mock_single_child (child_page_id : Nat) : InnerNode :=
  ⟨[], [child_page_id]⟩

/-! Mapping table (src/mapping_table.rs). The `Rc<RefCell<MiniPage>>` handle
is embedded as the mini-page value itself; mutation through the shared handle
becomes an explicit write-back of the mutated mini-page into the slot. -/

/-- MappingTable: dense vector indexed by logical page id. -/
structure MappingTable where
  table : List (Option (Option MiniPage × Nat))
deriving DecidableEq

/-- MappingTable::new. -/
def MappingTable.new : MappingTable := ⟨[]⟩

/-- MappingTable::get. -/
def MappingTable.get (t : MappingTable) (page_id : Nat) : Option (Option MiniPage × Nat) :=
  t.table.getD page_id none

/-- MappingTable::insert: grow with `None` slots, then write. -/
def MappingTable.insert (t : MappingTable) (page_id : Nat) (mini : Option MiniPage)
    (disk_offset : Nat) : MappingTable :=
  let grown := if t.table.length ≤ page_id
    then t.table ++ List.replicate (page_id + 1 - t.table.length) none
    else t.table
  ⟨grown.set page_id (some (mini, disk_offset))⟩

/-- MappingTable::contains. -/
def MappingTable.contains (t : MappingTable) (page_id : Nat) : Bool :=
  page_id < t.table.length && (t.table.getD page_id none).isSome

/-- MappingTable::update_mini_page; `none` is the panic on a missing slot. -/
def MappingTable.update_mini_page (t : MappingTable) (page_id : Nat) (mini : MiniPage) :
    Option MappingTable :=
  match t.get page_id with
  | some (_, disk_offset) => some ⟨t.table.set page_id (some (some mini, disk_offset))⟩
  | none => none

/-- MappingTable::clear_mini_page. -/
def MappingTable.clear_mini_page (t : MappingTable) (page_id : Nat) : MappingTable :=
  match t.get page_id with
  | some (_, disk_offset) => ⟨t.table.set page_id (some (none, disk_offset))⟩
  | none => t

/-! Tree facade (src/bf_tree.rs). Panics are embedded as `none` results;
the two probabilistic admission draws (`rand::random::<f64>() < 0.01`) are
boolean parameters. -/

/-- BfTree: mapping table, pinned root, pinned inner nodes (the `HashMap` is
an association list on page id). -/
structure BfTree where
  mapping_table : MappingTable
  root_inner_node : InnerNode
  inner_nodes : List (Nat × InnerNode)
deriving DecidableEq

/-- BfTree::get_inner_node: id 0 is the root, other ids are looked up among
the pinned inner nodes. -/
def BfTree.get_inner_node (t : BfTree) (page_id : Nat) : Option InnerNode :=
  if page_id = 0 then some t.root_inner_node
  else (t.inner_nodes.find? fun e => e.1 == page_id).map Prod.snd

/-- Descend loop of BfTree::traverse. The source loops until a child id
resolves through the mapping table; the fuel bounds the descent (a tree whose
child ids cycle would loop forever in the source and returns `none` here),
and `none` also stands for the two panic paths. -/
def traverseGo (t : BfTree) (key : List Nat) :
    Nat → InnerNode → Option (Option MiniPage × Nat × Nat)
  | 0, _ => none
  | fuel + 1, node =>
    match node.find_child_page_id key with
    | none => none
    | some child_page_id =>
      match t.get_inner_node child_page_id with
      | some inner => traverseGo t key fuel inner
      | none =>
        match t.mapping_table.get child_page_id with
        | some (mini_opt, disk_offset) => some (mini_opt, disk_offset, child_page_id)
        | none => none

/-- BfTree::traverse: resolves a key to `(mini-page?, leaf offset, page id)`. -/
def BfTree.traverse (t : BfTree) (key : List Nat) :
    Option (Option MiniPage × Nat × Nat) :=
  traverseGo t key (t.inner_nodes.length + 2) t.root_inner_node

/-- Write-back of a mutated shared mini-page into its mapping-table slot:
this is what mutation through the `Rc<RefCell<..>>` handle amounts to. -/
def BfTree.sync_mini (t : BfTree) (page_id : Nat) (mini : MiniPage) (off : Nat) : BfTree :=
  { t with mapping_table := ⟨t.mapping_table.table.set page_id (some (some mini, off))⟩ }

/-- BfTree::get: search the mini-page, fall back to the leaf on disk, then
with the drawn probabilities admit the result as `Cache` (hit) or `Phantom`
(miss). A mini-page hit returns its value immediately, whatever the record's
type. `none` is the `merge() not yet implemented` panic. -/
def BfTree.get (t : BfTree) (d : Disk) (key : List Nat) (cacheDraw negDraw : Bool) :
    Option (BfTree × Option (List Nat)) :=
  match t.traverse key with
  | none => none
  | some (mini_opt0, leaf_disk_offset, page_id) =>
    let step1 : BfTree × Option MiniPage × Option (List Nat) :=
      match mini_opt0 with
      | some mini =>
        let r := mini.binary_search key
        (t.sync_mini page_id r.1 leaf_disk_offset, some r.1, r.2)
      | none => (t, none, none)
    match step1 with
    | (t1, _, some value) => some (t1, some value)
    | (t1, mini_opt, none) =>
      let leaf_page := LeafPage.load_from_disk d leaf_disk_offset
      let rl := leaf_page.binary_search key
      match rl.2 with
      | some value =>
        if cacheDraw then
          match mini_opt with
          | some mini =>
            let ri := mini.insert key value (some RecordType.Cache)
            if ri.2 then some (t1.sync_mini page_id ri.1 leaf_disk_offset, some value)
            else
              let new_size := ri.1.next_size
              if new_size = 0 then none
              else
                let rm := (ri.1.resize new_size).insert key value (some RecordType.Cache)
                some (t1.sync_mini page_id rm.1 leaf_disk_offset, some value)
          | none =>
            let rn := (MiniPage.new leaf_disk_offset).insert key value
              (some RecordType.Cache)
            if rn.2 then
              match t1.mapping_table.update_mini_page page_id rn.1 with
              | some mt => some ({ t1 with mapping_table := mt }, some value)
              | none => none
            else some (t1, some value)
        else some (t1, some value)
      | none =>
        if negDraw then
          match mini_opt with
          | some mini =>
            let ri := mini.insert key [] (some RecordType.Phantom)
            some (t1.sync_mini page_id ri.1 leaf_disk_offset, none)
          | none =>
            let rn := (MiniPage.new leaf_disk_offset).insert key []
              (some RecordType.Phantom)
            if rn.2 then
              match t1.mapping_table.update_mini_page page_id rn.1 with
              | some mt => some ({ t1 with mapping_table := mt }, none)
              | none => none
            else some (t1, none)
        else some (t1, none)

/-- BfTree::insert: buffer the write in the mini-page, creating or growing it
as the source does. On a full mini-page that can still grow, the source
resizes and retries once, discarding the retried insert's result; when no
mini-page exists and the fresh one rejects the pair, the new mini-page is not
registered and the write is dropped. `none` is the merge panic. -/
def BfTree.insert (t : BfTree) (key value : List Nat) : Option BfTree :=
  match t.traverse key with
  | none => none
  | some (mini_opt, leaf_disk_offset, page_id) =>
    match mini_opt with
    | some mini =>
      let ri := mini.insert key value (some RecordType.Insert)
      if ri.2 then some (t.sync_mini page_id ri.1 leaf_disk_offset)
      else
        let new_size := ri.1.next_size
        if new_size = 0 then none
        else
          let rm := (ri.1.resize new_size).insert key value (some RecordType.Insert)
          some (t.sync_mini page_id rm.1 leaf_disk_offset)
    | none =>
      let rn := (MiniPage.new leaf_disk_offset).insert key value (some RecordType.Insert)
      if rn.2 then
        match t.mapping_table.update_mini_page page_id rn.1 with
        | some mt => some { t with mapping_table := mt }
        | none => none
      else some t

/-! Mini-page merge. The body of `MiniPage::merge` in src/mini_page.rs is an
incomplete stub (it only loads the leaf, through names that do not resolve),
and the tree facade panics where it would be called; the algorithm itself is
given by the specification (§IV.C merge algorithm). The definitions below are
therefore modelled from the spec, reusing the embedded codec operations where
the spec delegates to them. -/

/-- Record view of a page entry: key, value, type and recency bits. -/
structure MergeRecord where
  key : List Nat
  value : List Nat
  type_flag : Nat
  ref_flag : Nat
deriving DecidableEq

/-- Records referenced by a page, in meta (= key) order. -/
def Page.records (p : Page) : List MergeRecord :=
  p.kv_metas.map fun m => ⟨keyAt p.data m, valueAt p.data m, m.type_flag, m.ref_flag⟩

/-- Conversion from the stored two-bit tag back to a RecordType. -/
def RecordType.ofU8 (n : Nat) : RecordType :=
  match n % 4 with
  | 0 => RecordType.Insert
  | 1 => RecordType.Cache
  | 2 => RecordType.Tombstone
  | _ => RecordType.Phantom

/-- Modelled from the spec: removal of every record matching `key` from a
page, the leaf-side effect of a `Tombstone` and of the overwrite step (the
codec in src/page.rs has no remove; §IV.C step 3 requires one). The heap
bytes are left in place; only the metas and the count change. -/
def Page.removeKey (p : Page) (key : List Nat) : Page :=
  let kept := p.kv_metas.filter fun m => !(keyAt p.data m == key)
  { p with kv_metas := kept
           node_meta := { p.node_meta with record_count := kept.length } }

/-- Modelled from the spec: §IV.C step 3 and 4 guard — apply the dirty
records to the leaf in key order; a `Tombstone` removes the key, an `Insert`
replaces any existing record then inserts; when the next dirty record does
not fit, stop and report the remaining records for the split path. -/
def applyDirty (leaf : LeafPage) : List MergeRecord → LeafPage ⊕ (LeafPage × List MergeRecord)
  | [] => Sum.inl leaf
  | r :: rest =>
    if r.type_flag = 2 then applyDirty ⟨(leaf.page.removeKey r.key)⟩ rest
    else if leaf.can_fit r.key r.value then
      applyDirty ⟨((leaf.page.removeKey r.key).insert r.key r.value
        (some RecordType.Insert)).1⟩ rest
    else Sum.inr (leaf, r :: rest)

/-- Modelled from the spec: the cleared mini-page of §IV.C step 6 — metas,
heap and `record_count` reset, header otherwise unchanged. -/
def clearedOf (p : Page) : Page :=
  { p with kv_metas := []
           data := []
           node_meta := { p.node_meta with record_count := 0 } }

/-- Modelled from the spec: §IV.C step 6 — rebuild the mini-page in place:
clear metas, heap and `record_count`, re-insert each hot record preserving
its type, then clear every `ref_flag` to 0. -/
def rebuildHot (p : Page) (hot : List MergeRecord) : Page :=
  let refilled := hot.foldl
    (fun pg r => (pg.insert r.key r.value (some (RecordType.ofU8 r.type_flag))).1)
    (clearedOf p)
  { refilled with kv_metas := refilled.kv_metas.map fun m => { m with ref_flag := 0 } }

/-- Modelled from the spec: `MiniPage::merge`, absent from the source (the
body in src/mini_page.rs is a non-functional stub). Loads the leaf the
mini-page fronts, partitions the records into hot (`ref_flag == 1`), dirty
(`ref_flag == 0` and type `Insert` or `Tombstone`) and discarded (the rest),
applies the dirty set, and either flushes the leaf back and rebuilds the
mini-page from the hot set (returning `none`), or splits, routes the
remaining dirty records by the split key, writes the left half at the old
offset and the right half at the fresh offset `nextOff`, and reports the
split. -/
def MiniPage.merge (mp : MiniPage) (d : Disk) (nextOff : Nat) :
    Disk × MiniPage × Option (List Nat × Nat × Nat) :=
  let leaf_offset := mp.page.node_meta.leaf
  let leaf_page := LeafPage.load_from_disk d leaf_offset
  let recs := mp.page.records
  let hot := recs.filter fun r => r.ref_flag == 1
  let dirty := recs.filter fun r =>
    r.ref_flag == 0 && (r.type_flag == 0 || r.type_flag == 2)
  match applyDirty leaf_page dirty with
  | Sum.inl leaf2 =>
    let d2 := leaf2.flush_to_disk d leaf_offset
    (d2, ⟨rebuildHot mp.page hot⟩, none)
  | Sum.inr (leaf1, rest) =>
    let s := leaf1.split
    let split_key := s.2.2.2
    let routed := rest.foldl
      (fun (acc : LeafPage × LeafPage) r =>
        let apply1 := fun (lp : LeafPage) =>
          if r.type_flag = 2 then LeafPage.mk (lp.page.removeKey r.key)
          else ⟨((lp.page.removeKey r.key).insert r.key r.value
            (some RecordType.Insert)).1⟩
        if lexCmp r.key split_key = Ordering.lt then (apply1 acc.1, acc.2)
        else (acc.1, apply1 acc.2))
      (s.2.1, s.2.2.1)
    let d2 := routed.2.flush_to_disk (routed.1.flush_to_disk d leaf_offset) nextOff
    (d2, mp, some (split_key, leaf_offset, nextOff))

/-! List and slice helper lemmas. -/

theorem insertIdx_eq_take_cons_drop {α : Type} (x : α) :
    ∀ (n : Nat) (l : List α), n ≤ l.length →
      l.insertIdx n x = l.take n ++ x :: l.drop n := by
  intro n
  induction n with
  | zero => intro l _; simp [List.insertIdx_zero]
  | succ n ih =>
    intro l hl
    cases l with
    | nil => simp at hl
    | cons a l' =>
      simp only [List.insertIdx_succ_cons, List.take, List.drop, List.cons_append]
      rw [ih l' (by simpa using hl)]

theorem map_insertIdx {α β : Type} (f : α → β) (x : α) :
    ∀ (n : Nat) (l : List α), n ≤ l.length →
      (l.insertIdx n x).map f = (l.map f).insertIdx n (f x) := by
  intro n
  induction n with
  | zero => intro l _; simp [List.insertIdx_zero]
  | succ n ih =>
    intro l hl
    cases l with
    | nil => simp at hl
    | cons a l' =>
      simp only [List.insertIdx_succ_cons, List.map_cons]
      rw [ih l' (by simpa using hl)]

theorem pairwise_insertIdx {α : Type} {R : α → α → Prop} {l : List α} {x : α} {n : Nat}
    (hn : n ≤ l.length) (hp : List.Pairwise R l)
    (h1 : ∀ i (hi : i < l.length), i < n → R l[i] x)
    (h2 : ∀ i (hi : i < l.length), n ≤ i → R x l[i]) :
    List.Pairwise R (l.insertIdx n x) := by
  rw [insertIdx_eq_take_cons_drop x n l hn]
  have hsplit : l.take n ++ l.drop n = l := List.take_append_drop n l
  have hp2 : List.Pairwise R (l.take n ++ l.drop n) := by rw [hsplit]; exact hp
  rw [List.pairwise_append] at hp2
  obtain ⟨hpt, hpd, hcross⟩ := hp2
  rw [List.pairwise_append]
  refine ⟨hpt, ?_, ?_⟩
  · rw [List.pairwise_cons]
    refine ⟨?_, hpd⟩
    intro b hb
    obtain ⟨j, hj, hbj⟩ := List.getElem_of_mem hb
    have hjl : n + j < l.length := by
      have := List.length_drop n l
      omega
    have : (l.drop n)[j] = l[n + j] := List.getElem_drop l
    exact hbj ▸ (this ▸ h2 (n + j) hjl (by omega))
  · intro a ha b hb
    rcases List.mem_cons.mp hb with rfl | hb2
    · obtain ⟨j, hj, haj⟩ := List.getElem_of_mem ha
      have hjn : j < n := by
        have := List.length_take n l
        omega
      have hjl : j < l.length := by omega
      have : (l.take n)[j] = l[j] := List.getElem_take l
      exact haj ▸ (this ▸ h1 j hjl hjn)
    · exact hcross a ha b hb2

theorem countP_of_boundary {α : Type} {l : List α} {P : α → Bool} {n : Nat}
    (hn : n ≤ l.length)
    (h1 : ∀ i (hi : i < l.length), i < n → P l[i])
    (h2 : ∀ i (hi : i < l.length), n ≤ i → ¬ P l[i]) :
    l.countP P = n := by
  have hsplit : l.take n ++ l.drop n = l := List.take_append_drop n l
  calc l.countP P = (l.take n ++ l.drop n).countP P := by rw [hsplit]
    _ = (l.take n).countP P + (l.drop n).countP P := List.countP_append P _ _
    _ = n + 0 := by
        congr 1
        · have hall : ∀ a ∈ l.take n, P a := by
            intro a ha
            obtain ⟨j, hj, haj⟩ := List.getElem_of_mem ha
            have hjn : j < n := by
              have := List.length_take n l
              omega
            have : (l.take n)[j] = l[j] := List.getElem_take l
            exact haj ▸ (this ▸ h1 j (by omega) hjn)
          calc (l.take n).countP P = (l.take n).length := List.countP_eq_length.mpr hall
            _ = n := by simp [List.length_take]; omega
        · refine List.countP_eq_zero.mpr ?_
          intro a ha
          obtain ⟨j, hj, haj⟩ := List.getElem_of_mem ha
          have hjl : n + j < l.length := by
            have := List.length_drop n l
            omega
          have : (l.drop n)[j] = l[n + j] := List.getElem_drop l
          exact haj ▸ (this ▸ h2 (n + j) hjl (by omega))
    _ = n := by omega

theorem slice_append (l e : List Nat) (a n : Nat) (h : a + n ≤ l.length) :
    slice (l ++ e) a n = slice l a n := by
  unfold slice
  rw [List.drop_append_of_le_length (by omega)]
  rw [List.take_append_of_le_length]
  rw [List.length_drop]
  omega

theorem slice_key_self (data k v : List Nat) :
    slice (data ++ k ++ v) data.length k.length = k := by
  unfold slice
  rw [List.append_assoc, List.drop_left, List.take_append_of_le_length (le_refl _),
    List.take_length]

theorem slice_value_self (data k v : List Nat) :
    slice (data ++ k ++ v) (data.length + k.length) v.length = v := by
  unfold slice
  have h : data ++ k ++ v = (data ++ k) ++ v := rfl
  have hl : (data ++ k).length = data.length + k.length := List.length_append data k
  rw [h, ← hl, List.drop_left, List.take_length]

theorem slice_length_le (l : List Nat) (a n : Nat) : (slice l a n).length ≤ n := by
  unfold slice
  simp [List.length_take]

/-! Specification of the branchless binary-search loop for monotone
comparators, and of the derived insertion position. -/

theorem bsbGo_spec (cmpAt : Nat → Ordering) (len : Nat)
    (M1 : ∀ i j, i ≤ j → j < len → cmpAt i = Ordering.gt → cmpAt j = Ordering.gt) :
    ∀ fuel size base, 1 ≤ size → size ≤ fuel → base + size ≤ len →
      (∀ i, i < base → cmpAt i ≠ Ordering.gt) →
      (∀ i, base + size ≤ i → i < len → cmpAt i = Ordering.gt) →
      bsbGo cmpAt fuel base size < len ∧
      (∀ i, i < bsbGo cmpAt fuel base size → cmpAt i ≠ Ordering.gt) ∧
      (∀ i, bsbGo cmpAt fuel base size < i → i < len → cmpAt i = Ordering.gt) := by
  intro fuel
  induction fuel with
  | zero => intro size base h1 h2 _ _ _; omega
  | succ fuel ih =>
    intro size base h1 h2 h3 hlow hhigh
    by_cases hs : 1 < size
    · have hh1 : 1 ≤ size / 2 := by omega
      have hh2 : size / 2 < size := by omega
      have hh3 : size / 2 ≤ size - size / 2 := by omega
      by_cases hc : cmpAt (base + size / 2) = Ordering.gt
      · have hrec := ih (size - size / 2) base (by omega) (by omega) (by omega) hlow
          (by
            intro i hi1 hi2
            exact M1 (base + size / 2) i (by omega) hi2 hc)
        simpa [bsbGo, hs, hc] using hrec
      · have hrec := ih (size - size / 2) (base + size / 2) (by omega) (by omega) (by omega)
          (by
            intro i hi
            intro hgt
            exact hc (M1 i (base + size / 2) (by omega) (by omega) hgt))
          (by
            intro i hi1 hi2
            exact hhigh i (by omega) hi2)
        simpa [bsbGo, hs, hc] using hrec
    · have hsize : size = 1 := by omega
      subst hsize
      have hred : bsbGo cmpAt (fuel + 1) base 1 = base := by simp [bsbGo, hs]
      rw [hred]
      refine ⟨by omega, hlow, ?_⟩
      intro i hi1 hi2
      exact hhigh i (by omega) hi2

theorem insertPosOf_spec (cmpAt : Nat → Ordering) (len : Nat)
    (M1 : ∀ i j, i ≤ j → j < len → cmpAt i = Ordering.gt → cmpAt j = Ordering.gt) :
    insertPosOf cmpAt len ≤ len ∧
    (∀ i, i < insertPosOf cmpAt len → cmpAt i ≠ Ordering.gt) ∧
    (∀ i, insertPosOf cmpAt len ≤ i → i < len → cmpAt i ≠ Ordering.lt) := by
  by_cases h0 : len = 0
  · subst h0
    refine ⟨le_refl 0, ?_, ?_⟩ <;> simp [insertPosOf, binarySearchBy]
  · have hspec := bsbGo_spec cmpAt len M1 len len 0 (by omega) (le_refl len) (by omega)
      (by intro i hi; omega) (by intro i hi1 hi2; omega)
    obtain ⟨hb1, hb2, hb3⟩ := hspec
    rcases hc : cmpAt (bsbGo cmpAt len 0 len) with _ | _ | _
    · -- lt: insertion position is base + 1
      have hpos : insertPosOf cmpAt len = bsbGo cmpAt len 0 len + 1 := by
        unfold insertPosOf binarySearchBy
        rw [if_neg h0]
        simp only [hc]
      rw [hpos]
      refine ⟨by omega, ?_, ?_⟩
      · intro i hi
        by_cases hib : i < bsbGo cmpAt len 0 len
        · exact hb2 i hib
        · have : i = bsbGo cmpAt len 0 len := by omega
          subst this
          simp [hc]
      · intro i hi1 hi2
        have := hb3 i (by omega) hi2
        simp [this]
    · -- eq: hit at base
      have hpos : insertPosOf cmpAt len = bsbGo cmpAt len 0 len := by
        unfold insertPosOf binarySearchBy
        rw [if_neg h0]
        simp only [hc]
      rw [hpos]
      refine ⟨by omega, hb2, ?_⟩
      intro i hi1 hi2
      by_cases hib : bsbGo cmpAt len 0 len < i
      · have := hb3 i hib hi2
        simp [this]
      · have : i = bsbGo cmpAt len 0 len := by omega
        subst this
        simp [hc]
    · -- gt: insertion position is base
      have hpos : insertPosOf cmpAt len = bsbGo cmpAt len 0 len := by
        unfold insertPosOf binarySearchBy
        rw [if_neg h0]
        simp only [hc]
      rw [hpos]
      refine ⟨by omega, hb2, ?_⟩
      intro i hi1 hi2
      by_cases hib : bsbGo cmpAt len 0 len < i
      · have := hb3 i hib hi2
        simp [this]
      · have : i = bsbGo cmpAt len 0 len := by omega
        subst this
        simp [hc]

/-! Page invariants and their preservation. -/

/-- Keys referenced by a page's record metas, in meta order. -/
def pageKeys (p : Page) : List (List Nat) := p.kv_metas.map (keyAt p.data)

/-- Every record meta's slice lies inside the data heap. -/
def metaBounds (p : Page) : Prop :=
  ∀ m ∈ p.kv_metas, m.offset + m.key_size + m.value_size ≤ p.data.length

/-- Every record meta carries sizes within the 14-bit field widths (true of
every meta the codec constructs, by the masks in KVMeta::new). -/
def metaSizes (p : Page) : Prop :=
  ∀ m ∈ p.kv_metas, m.key_size < 16384 ∧ m.value_size < 16384

instance (p : Page) : Decidable (metaBounds p) := by unfold metaBounds; infer_instance

instance (p : Page) : Decidable (metaSizes p) := by unfold metaSizes; infer_instance

theorem keyAt_append {data ext : List Nat} {m : KVMeta}
    (h : m.offset + m.key_size ≤ data.length) :
    keyAt (data ++ ext) m = keyAt data m :=
  slice_append data ext m.offset m.key_size h

theorem valueAt_append {data ext : List Nat} {m : KVMeta}
    (h : m.offset + m.key_size + m.value_size ≤ data.length) :
    valueAt (data ++ ext) m = valueAt data m :=
  slice_append data ext (m.offset + m.key_size) m.value_size (by omega)

theorem Page.insert_of_full {p : Page} {k v : List Nat} {rt : Option RecordType}
    (h : p.node_meta.node_size <
      p.kv_metas.length * 8 + p.data.length + k.length + v.length + 12) :
    p.insert k v rt = (p, false) := by
  unfold Page.insert
  rw [if_pos (by omega)]

theorem Page.insert_of_fits {p : Page} {k v : List Nat} {rt : Option RecordType}
    (h : p.kv_metas.length * 8 + p.data.length + k.length + v.length + 12 ≤
      p.node_meta.node_size) :
    p.insert k v rt =
      ({ node_meta :=
          { p.node_meta with record_count := (p.node_meta.record_count + 1) % 65536 }
         kv_metas := p.kv_metas.insertIdx
          (insertPosOf
            (fun i => lexCmp (keyAt (p.data ++ k ++ v) (p.kv_metas.getD i default)) k)
            p.kv_metas.length)
          (KVMeta.new k.length v.length (p.data.length % 65536)
            (insertTypeFlag rt) false 0 0)
         data := p.data ++ k ++ v }, true) := by
  unfold Page.insert
  rw [if_neg (by omega)]

/-- Everything Page::insert does to a page that satisfies the structural
invariants: the header fields other than `record_count` are untouched, key
order, bounds and sizes are preserved, and on success one meta is spliced in,
the heap grows by the pair, and the count advances by one. -/
theorem insert_invariants {p : Page} {k v : List Nat} {rt : Option RecordType}
    (hns : p.node_meta.node_size < 65536)
    (hsort : List.Pairwise lexLe (pageKeys p))
    (hb : metaBounds p) (hsz : metaSizes p)
    (hk : k.length < 16384) (hv : v.length < 16384) :
    (p.insert k v rt).1.node_meta.node_size = p.node_meta.node_size ∧
    (p.insert k v rt).1.node_meta.leaf = p.node_meta.leaf ∧
    (p.insert k v rt).1.node_meta.split_flag = p.node_meta.split_flag ∧
    (p.insert k v rt).1.node_meta.page_type = p.node_meta.page_type ∧
    List.Pairwise lexLe (pageKeys (p.insert k v rt).1) ∧
    metaBounds (p.insert k v rt).1 ∧ metaSizes (p.insert k v rt).1 ∧
    ((p.insert k v rt).2 = false ∧ (p.insert k v rt).1 = p ∨
      (p.insert k v rt).2 = true ∧
        (p.insert k v rt).1.kv_metas.length = p.kv_metas.length + 1 ∧
        (p.insert k v rt).1.node_meta.record_count =
          (p.node_meta.record_count + 1) % 65536 ∧
        (p.insert k v rt).1.data.length = p.data.length + k.length + v.length ∧
        p.kv_metas.length ≤ 8191) := by
  by_cases hfull : p.node_meta.node_size <
      p.kv_metas.length * 8 + p.data.length + k.length + v.length + 12
  · rw [Page.insert_of_full hfull]
    exact ⟨rfl, rfl, rfl, rfl, hsort, hb, hsz, Or.inl ⟨rfl, rfl⟩⟩
  · have hfit : p.kv_metas.length * 8 + p.data.length + k.length + v.length + 12 ≤
        p.node_meta.node_size := by omega
    have hlen : p.kv_metas.length ≤ 8191 := by omega
    have hdl : p.data.length < 65536 := by omega
    rw [Page.insert_of_fits hfit]
    set cmpAt := fun i =>
      lexCmp (keyAt (p.data ++ k ++ v) (p.kv_metas.getD i default)) k with hcmp
    have hcm : ∀ i (hi : i < p.kv_metas.length),
        cmpAt i = lexCmp ((pageKeys p).get ⟨i, by simpa [pageKeys] using hi⟩) k := by
      intro i hi
      have h1 : p.kv_metas.getD i default = p.kv_metas[i] :=
        List.getD_eq_getElem _ _ hi
      have h2 : (pageKeys p).get ⟨i, by simpa [pageKeys] using hi⟩ =
          keyAt p.data p.kv_metas[i] := by
        simp [pageKeys]
      have hbi : p.kv_metas[i].offset + p.kv_metas[i].key_size ≤ p.data.length := by
        have := hb p.kv_metas[i] (List.getElem_mem hi)
        omega
      rw [h2]
      show lexCmp (keyAt (p.data ++ k ++ v) (p.kv_metas.getD i default)) k = _
      rw [h1, show p.data ++ k ++ v = p.data ++ (k ++ v) from List.append_assoc p.data k v,
        keyAt_append hbi]
    have hpairget : ∀ i j (hi : i < p.kv_metas.length) (hj : j < p.kv_metas.length),
        i < j → lexLe (keyAt p.data p.kv_metas[i]) (keyAt p.data p.kv_metas[j]) := by
      intro i j hi hj hij
      have := List.pairwise_iff_getElem.mp hsort i j
        (by simpa [pageKeys] using hi) (by simpa [pageKeys] using hj) hij
      simpa [pageKeys] using this
    have hM1 : ∀ i j, i ≤ j → j < p.kv_metas.length →
        cmpAt i = Ordering.gt → cmpAt j = Ordering.gt := by
      intro i j hij hj hgt
      rcases Nat.lt_or_ge i j with hlt | hge
      · have hi : i < p.kv_metas.length := by omega
        rw [hcm i hi] at hgt
        rw [hcm j hj]
        have hle := hpairget i j hi hj hlt
        have : (pageKeys p).get ⟨i, by simpa [pageKeys] using hi⟩ =
            keyAt p.data p.kv_metas[i] := by simp [pageKeys]
        rw [this] at hgt
        have : (pageKeys p).get ⟨j, by simpa [pageKeys] using hj⟩ =
            keyAt p.data p.kv_metas[j] := by simp [pageKeys]
        rw [this]
        exact gt_trans_le hgt hle
      · have : i = j := by omega
        subst this
        exact hgt
    obtain ⟨hp1, hp2, hp3⟩ := insertPosOf_spec cmpAt p.kv_metas.length hM1
    set pos := insertPosOf cmpAt p.kv_metas.length with hposdef
    set new_kv := KVMeta.new k.length v.length (p.data.length % 65536)
      (insertTypeFlag rt) false 0 0 with hnew
    have hnewoff : new_kv.offset = p.data.length := by
      simp only [hnew, KVMeta.new]
      omega
    have hnewks : new_kv.key_size = k.length := by
      simp only [hnew, KVMeta.new]
      omega
    have hnewvs : new_kv.value_size = v.length := by
      simp only [hnew, KVMeta.new]
      omega
    have hkeynew : keyAt (p.data ++ k ++ v) new_kv = k := by
      unfold keyAt
      rw [hnewoff, hnewks]
      exact slice_key_self p.data k v
    have hposlen : pos ≤ (pageKeys p).length := by simpa [pageKeys] using hp1
    have hmapins : pageKeys (⟨{ p.node_meta with
          record_count := (p.node_meta.record_count + 1) % 65536 },
        p.kv_metas.insertIdx pos new_kv, p.data ++ k ++ v⟩ : Page) =
        (pageKeys p).insertIdx pos k := by
      unfold pageKeys
      simp only
      rw [map_insertIdx _ _ _ _ hp1, hkeynew]
      congr 1
      apply List.map_congr_left
      intro m hm
      have hbm := hb m hm
      rw [show p.data ++ k ++ v = p.data ++ (k ++ v) from List.append_assoc p.data k v]
      exact keyAt_append (by omega)
    refine ⟨rfl, rfl, rfl, rfl, ?_, ?_, ?_, ?_⟩
    · rw [hmapins]
      apply pairwise_insertIdx hposlen hsort
      · intro i hi hipos
        have hi' : i < p.kv_metas.length := by simpa [pageKeys] using hi
        have := hp2 i hipos
        rw [hcm i hi'] at this
        simpa [List.get_eq_getElem] using this
      · intro i hi hposi
        have hi' : i < p.kv_metas.length := by simpa [pageKeys] using hi
        have := hp3 i hposi hi'
        rw [hcm i hi'] at this
        have hle := lexLe_of_not_lt this
        simpa [List.get_eq_getElem] using hle
    · intro m hm
      simp only at hm
      rcases (List.mem_insertIdx hp1).mp hm with rfl | hmem
      · simp only [List.length_append]
        rw [hnewoff, hnewks, hnewvs]
      · have := hb m hmem
        simp only [List.length_append]
        omega
    · intro m hm
      simp only at hm
      rcases (List.mem_insertIdx hp1).mp hm with rfl | hmem
      · rw [hnewks, hnewvs]
        exact ⟨hk, hv⟩
      · exact hsz m hmem
    · right
      refine ⟨rfl, ?_, rfl, ?_, hlen⟩
      · simp only
        rw [List.length_insertIdx pos p.kv_metas hp1]
      · simp [List.length_append]
        omega

/-- Position-independent shape of a record meta: heap offset and sizes. -/
def kvShape (m : KVMeta) : Nat × Nat × Nat := (m.offset, m.key_size, m.value_size)

/-- The ref-flag mark applied by a binary-search hit. -/
def setRef (m : KVMeta) : KVMeta := { m with ref_flag := 1 }

theorem set_self_map {α β : Type} (f : α → β) (l : List α) (i : Nat) (a : α)
    (h : ∀ hi : i < l.length, f a = f (l.get ⟨i, hi⟩)) :
    (l.set i a).map f = l.map f := by
  apply List.ext_getElem
  · simp
  · intro j h1 h2
    have hj : j < l.length := by simpa using h2
    simp only [List.getElem_map, List.getElem_set]
    by_cases hij : i = j
    · subst hij
      simpa [List.get_eq_getElem] using h hj
    · simp [hij]

/-- Page::binary_search only ever flips a `ref_flag`: the header, the heap
and the shape of every meta are unchanged. -/
theorem bsGo_shape (p : Page) (t : List Nat) : ∀ fuel l r,
    (bsGo p t fuel l r).1.node_meta = p.node_meta ∧
    (bsGo p t fuel l r).1.data = p.data ∧
    (bsGo p t fuel l r).1.kv_metas.map kvShape = p.kv_metas.map kvShape := by
  intro fuel
  induction fuel with
  | zero => intro l r; exact ⟨rfl, rfl, rfl⟩
  | succ fuel ih =>
    intro l r
    by_cases hlr : l < r
    · rcases hc : lexCmp (keyAt p.data (p.kv_metas.getD ((l + r) / 2) default)) t
        with _ | _ | _
      · have hstep : bsGo p t (fuel + 1) l r = bsGo p t fuel ((l + r) / 2 + 1) r := by
          simp only [bsGo, hlr, if_true]
          rw [hc]
        rw [hstep]
        exact ih _ _
      · have hstep : bsGo p t (fuel + 1) l r =
            (⟨p.node_meta,
              p.kv_metas.set ((l + r) / 2)
                (setRef (p.kv_metas.getD ((l + r) / 2) default)),
              p.data⟩,
              some (valueAt p.data (p.kv_metas.getD ((l + r) / 2) default))) := by
          simp only [bsGo, hlr, if_true]
          rw [hc]
          exact rfl
        rw [hstep]
        refine ⟨rfl, rfl, ?_⟩
        apply set_self_map
        intro hlt
        rw [List.getD_eq_getElem _ _ hlt]
        simp [kvShape, setRef]
      · have hstep : bsGo p t (fuel + 1) l r =
            (if (l + r) / 2 = 0 then (p, none) else bsGo p t fuel l ((l + r) / 2)) := by
          simp only [bsGo, hlr, if_true]
          rw [hc]
        rw [hstep]
        by_cases hm : (l + r) / 2 = 0
        · rw [if_pos hm]
          exact ⟨rfl, rfl, rfl⟩
        · rw [if_neg hm]
          exact ih l ((l + r) / 2)
    · have hstep : bsGo p t (fuel + 1) l r = (p, none) := by
        simp [bsGo, hlr]
      rw [hstep]
      exact ⟨rfl, rfl, rfl⟩

theorem shape_keyAt {data : List Nat} {l1 l2 : List KVMeta}
    (h : l1.map kvShape = l2.map kvShape) :
    l1.map (keyAt data) = l2.map (keyAt data) := by
  have h1 : l1.map (keyAt data) = (l1.map kvShape).map
      (fun s => slice data s.1 s.2.1) := by
    rw [List.map_map]
    rfl
  have h2 : l2.map (keyAt data) = (l2.map kvShape).map
      (fun s => slice data s.1 s.2.1) := by
    rw [List.map_map]
    rfl
  rw [h1, h2, h]

/-- Page::binary_search preserves the page invariants. -/
theorem binary_search_invariants (p : Page) (t : List Nat) :
    (p.binary_search t).1.node_meta = p.node_meta ∧
    (p.binary_search t).1.data = p.data ∧
    pageKeys (p.binary_search t).1 = pageKeys p ∧
    (p.binary_search t).1.kv_metas.length = p.kv_metas.length ∧
    (metaBounds p → metaBounds (p.binary_search t).1) ∧
    (metaSizes p → metaSizes (p.binary_search t).1) := by
  obtain ⟨h1, h2, h3⟩ := bsGo_shape p t (p.kv_metas.length + 1) 0 p.kv_metas.length
  have hlen : (p.binary_search t).1.kv_metas.length = p.kv_metas.length := by
    have := congrArg List.length h3
    simpa using this
  rw [show p.binary_search t = bsGo p t (p.kv_metas.length + 1) 0 p.kv_metas.length
    from rfl]
  refine ⟨h1, h2, ?_, by simpa using congrArg List.length h3, ?_, ?_⟩
  · unfold pageKeys
    rw [h2]
    exact shape_keyAt h3
  · intro hb m hm
    have hmem : kvShape m ∈
        (bsGo p t (p.kv_metas.length + 1) 0 p.kv_metas.length).1.kv_metas.map kvShape :=
      List.mem_map.mpr ⟨m, hm, rfl⟩
    rw [h3] at hmem
    obtain ⟨m0, hm0, hsh⟩ := List.mem_map.mp hmem
    have := hb m0 hm0
    have ho : m0.offset = m.offset ∧ m0.key_size = m.key_size ∧
        m0.value_size = m.value_size := by
      simpa [kvShape, Prod.ext_iff] using hsh
    rw [h2]
    omega
  · intro hs m hm
    have hmem : kvShape m ∈
        (bsGo p t (p.kv_metas.length + 1) 0 p.kv_metas.length).1.kv_metas.map kvShape :=
      List.mem_map.mpr ⟨m, hm, rfl⟩
    rw [h3] at hmem
    obtain ⟨m0, hm0, hsh⟩ := List.mem_map.mp hmem
    have := hs m0 hm0
    have ho : m0.offset = m.offset ∧ m0.key_size = m.key_size ∧
        m0.value_size = m.value_size := by
      simpa [kvShape, Prod.ext_iff] using hsh
    omega

/-- Structural well-formedness of a page: in-range header numbers, count
agreeing with the metas, keys sorted (non-strictly), and meta slices inside
the heap with 14-bit sizes. -/
def Wf (p : Page) : Prop :=
  p.node_meta.node_size < 65536 ∧
  p.kv_metas.length ≤ 8192 ∧
  p.node_meta.record_count = p.kv_metas.length ∧
  List.Pairwise lexLe (pageKeys p) ∧
  metaBounds p ∧ metaSizes p

/-- Pages reachable through the codec-level operations the tree performs:
fresh pages, inserts of 14-bit-sized pairs, lookups, and mini-page resizes. -/
inductive Reachable : Page → Prop
  | new : ∀ (ns : Nat) (pt : PageType) (sf : Bool) (leaf : Nat),
      Reachable (Page.new (NodeMeta.new ns pt sf 0 leaf))
  | ins : ∀ (p : Page) (k v : List Nat) (rt : Option RecordType), Reachable p →
      k.length < 16384 → v.length < 16384 → Reachable (p.insert k v rt).1
  | search : ∀ (p : Page) (t : List Nat), Reachable p → Reachable (p.binary_search t).1
  | grow : ∀ (m : MiniPage) (ns : Nat), Reachable m.page → Reachable (m.resize ns).page

theorem reachable_wf : ∀ p, Reachable p → Wf p := by
  intro p hr
  induction hr with
  | new ns pt sf leaf =>
    refine ⟨?_, ?_, ?_, ?_, ?_, ?_⟩
    · simp [Page.new, NodeMeta.new]
      omega
    · simp [Page.new]
    · simp [Page.new, NodeMeta.new]
    · simp [Page.new, pageKeys]
    · intro m hm
      simp [Page.new] at hm
    · intro m hm
      simp [Page.new] at hm
  | ins p k v rt _ hk hv ih =>
    obtain ⟨hns, hlen, hcount, hsort, hb, hsz⟩ := ih
    obtain ⟨i1, _, _, _, i5, i6, i7, i8⟩ := insert_invariants hns hsort hb hsz hk hv
    refine ⟨by rw [i1]; exact hns, ?_, ?_, i5, i6, i7⟩
    · rcases i8 with ⟨_, heq⟩ | ⟨_, hlen2, _, _, hsmall⟩
      · rw [heq]; exact hlen
      · omega
    · rcases i8 with ⟨_, heq⟩ | ⟨_, hlen2, hcount2, _, hsmall⟩
      · rw [heq]; exact hcount
      · rw [hcount2, hlen2, hcount]
        omega
  | search p t _ ih =>
    obtain ⟨hns, hlen, hcount, hsort, hb, hsz⟩ := ih
    obtain ⟨s1, s2, s3, s4, s5, s6⟩ := binary_search_invariants p t
    exact ⟨by rw [s1]; exact hns, by rw [s4]; exact hlen,
      by rw [s1, s4]; exact hcount, by rw [s3]; exact hsort, s5 hb, s6 hsz⟩
  | grow m ns _ ih =>
    obtain ⟨hns, hlen, hcount, hsort, hb, hsz⟩ := ih
    refine ⟨?_, ?_, ?_, ?_, ?_, ?_⟩
    · simp [MiniPage.resize, NodeMeta.new]
      omega
    · simpa [MiniPage.resize] using hlen
    · simp only [MiniPage.resize, NodeMeta.new]
      rw [hcount]
      have : m.page.kv_metas.length < 65536 := by omega
      omega
    · simpa [MiniPage.resize, pageKeys] using hsort
    · intro mm hm
      exact hb mm (by simpa [MiniPage.resize] using hm)
    · intro mm hm
      exact hsz mm (by simpa [MiniPage.resize] using hm)

/-- Invariant carried by each half while LeafPage::split re-inserts records:
sorted keys, valid metas, and a record count that trails the inherited
original count by exactly the number of records inserted so far. -/
def SplitHalf (c0 : Nat) (q : Page) : Prop :=
  List.Pairwise lexLe (pageKeys q) ∧ metaBounds q ∧ metaSizes q ∧
  q.node_meta.node_size < 65536 ∧
  q.node_meta.record_count = (c0 + q.kv_metas.length) % 65536 ∧
  q.kv_metas.length ≤ 8192

theorem splitHalf_insert {c0 : Nat} {q : Page} (hq : SplitHalf c0 q)
    {k v : List Nat} (hk : k.length < 16384) (hv : v.length < 16384) :
    SplitHalf c0 (q.insert k v none).1 := by
  obtain ⟨hsort, hb, hsz, hns, hcount, hlen⟩ := hq
  obtain ⟨i1, _, _, _, i5, i6, i7, i8⟩ := insert_invariants hns hsort hb hsz hk hv
  refine ⟨i5, i6, i7, by rw [i1]; exact hns, ?_, ?_⟩
  · rcases i8 with ⟨_, heq⟩ | ⟨_, hlen2, hcount2, _, _⟩
    · rw [heq]; exact hcount
    · rw [hcount2, hlen2, hcount, Nat.mod_add_mod, Nat.add_assoc]
  · rcases i8 with ⟨_, heq⟩ | ⟨_, hlen2, _, _, hsmall⟩
    · rw [heq]; exact hlen
    · omega

theorem split_fold_inv (p : Page) (c0 mid : Nat) (hsz : metaSizes p) :
    ∀ (l : List (Nat × KVMeta)) (acc : Page × Page),
      (∀ im ∈ l, im.2 ∈ p.kv_metas) → SplitHalf c0 acc.1 → SplitHalf c0 acc.2 →
      SplitHalf c0 ((l.foldl
        (fun (acc : Page × Page) (ikv : Nat × KVMeta) =>
          let key := keyAt p.data ikv.2
          let val := valueAt p.data ikv.2
          if ikv.1 < mid then ((acc.1.insert key val none).1, acc.2)
          else (acc.1, (acc.2.insert key val none).1)) acc).1) ∧
      SplitHalf c0 ((l.foldl
        (fun (acc : Page × Page) (ikv : Nat × KVMeta) =>
          let key := keyAt p.data ikv.2
          let val := valueAt p.data ikv.2
          if ikv.1 < mid then ((acc.1.insert key val none).1, acc.2)
          else (acc.1, (acc.2.insert key val none).1)) acc).2) := by
  intro l
  induction l with
  | nil => intro acc _ h1 h2; exact ⟨h1, h2⟩
  | cons im l' ih =>
    intro acc hmem h1 h2
    have himp : im.2 ∈ p.kv_metas := hmem im (List.mem_cons_self im l')
    have hkl : (keyAt p.data im.2).length < 16384 := by
      have := (hsz im.2 himp).1
      have := slice_length_le p.data im.2.offset im.2.key_size
      unfold keyAt
      omega
    have hvl : (valueAt p.data im.2).length < 16384 := by
      have := (hsz im.2 himp).2
      have := slice_length_le p.data (im.2.offset + im.2.key_size) im.2.value_size
      unfold valueAt
      omega
    simp only [List.foldl_cons]
    apply ih
    · intro jm hjm
      exact hmem jm (List.mem_cons_of_mem im hjm)
    · by_cases hi : im.1 < mid
      · simpa [hi] using splitHalf_insert h1 hkl hvl
      · simpa [hi] using h1
    · by_cases hi : im.1 < mid
      · simpa [hi] using h2
      · simpa [hi] using splitHalf_insert h2 hkl hvl

/-! Claim C4. -/

/-- Leaf with two records, used to exhibit the split bookkeeping bug. -/
def c4Leaf : LeafPage :=
  ⟨(((Page.new (NodeMeta.new 4096 PageType.LeafPage false 0 0)).insert
      [1] [10] none).1.insert [2] [20] none).1⟩

/-- Page built by inserting the key `[7]` twice. -/
def c4Dup : Page :=
  (((Page.new (NodeMeta.new 4096 PageType.LeafPage false 0 0)).insert
      [7] [1] none).1.insert [7] [2] none).1

/-- C4 counterexample: the claim fails on the code in two ways. The left half
returned by splitting a two-record leaf reports `record_count = 3` while
holding a single record meta (Page::new clones the receiver's header, count
included, and insert increments from there), and inserting the same key twice
yields a page whose referenced keys are `[[7], [7]]` — duplicate keys are not
forbidden, so `record_metas` is not strictly sorted. -/
theorem C4_counterexample :
    (c4Leaf.split.2.1.page.node_meta.record_count = 3 ∧
      c4Leaf.split.2.1.page.kv_metas.length = 1) ∧
    pageKeys c4Dup = [[7], [7]] := by decide

/-- C4 (amended): after any sequence of codec operations (fresh page, insert
of 14-bit-sized pairs, lookup, mini-page resize) every page satisfies
`record_count == len(record_metas)` and `record_metas` is sorted
non-strictly by the referenced keys — duplicate keys can occur. The two
halves returned by a split are also sorted non-strictly, but each half's
`record_count` equals `(original record_count + its own record_metas length)
% 2^16`, because `Page::new` inherits the receiver's count; hence the halves
satisfy `record_count == len(record_metas)` only when the split page was
empty. -/
theorem C4_invariants_amended :
    (∀ p, Reachable p → p.node_meta.record_count = p.kv_metas.length ∧
      List.Pairwise lexLe (pageKeys p)) ∧
    (∀ lp : LeafPage, Wf lp.page →
      List.Pairwise lexLe (pageKeys lp.split.2.1.page) ∧
      List.Pairwise lexLe (pageKeys lp.split.2.2.1.page) ∧
      lp.split.2.1.page.node_meta.record_count =
        (lp.page.node_meta.record_count + lp.split.2.1.page.kv_metas.length) % 65536 ∧
      lp.split.2.2.1.page.node_meta.record_count =
        (lp.page.node_meta.record_count + lp.split.2.2.1.page.kv_metas.length) % 65536) := by
  constructor
  · intro p hr
    obtain ⟨_, _, h3, h4, _, _⟩ := reachable_wf p hr
    exact ⟨h3, h4⟩
  · intro lp hw
    obtain ⟨hns, hlen, hcount, hsort, hb, hsz⟩ := hw
    have hstart : SplitHalf lp.page.node_meta.record_count (Page.new lp.page.node_meta) := by
      refine ⟨?_, ?_, ?_, hns, ?_, ?_⟩
      · simp [Page.new, pageKeys]
      · intro m hm; simp [Page.new] at hm
      · intro m hm; simp [Page.new] at hm
      · simp only [Page.new, List.length_nil, Nat.add_zero]
        rw [hcount]
        omega
      · simp [Page.new]
    have hmem : ∀ im ∈ lp.page.kv_metas.enum, im.2 ∈ lp.page.kv_metas := by
      intro im him
      exact List.snd_mem_of_mem_enum him
    obtain ⟨hL, hR⟩ := split_fold_inv lp.page lp.page.node_meta.record_count
      (lp.page.kv_metas.length / 2) hsz lp.page.kv_metas.enum
      (Page.new lp.page.node_meta, Page.new lp.page.node_meta) hmem hstart hstart
    exact ⟨hL.1, hR.1, hL.2.2.2.2.1, hR.2.2.2.2.1⟩

/-- Concrete reachable page for the C4 witness. -/
def c4WitnessPage : Page :=
  ((Page.new (NodeMeta.new 4096 PageType.LeafPage false 0 0)).insert [3] [4] none).1

/-- Witness for C4: the amended theorem applied to a concrete reachable page
and to the concrete two-record leaf. -/
theorem C4_invariants_amended_witness :
    (c4WitnessPage.node_meta.record_count = c4WitnessPage.kv_metas.length ∧
      List.Pairwise lexLe (pageKeys c4WitnessPage)) ∧
    (List.Pairwise lexLe (pageKeys c4Leaf.split.2.1.page) ∧
      List.Pairwise lexLe (pageKeys c4Leaf.split.2.2.1.page) ∧
      c4Leaf.split.2.1.page.node_meta.record_count =
        (c4Leaf.page.node_meta.record_count + c4Leaf.split.2.1.page.kv_metas.length) %
          65536 ∧
      c4Leaf.split.2.2.1.page.node_meta.record_count =
        (c4Leaf.page.node_meta.record_count + c4Leaf.split.2.2.1.page.kv_metas.length) %
          65536) :=
  ⟨C4_invariants_amended.1 c4WitnessPage
      (Reachable.ins _ [3] [4] none
        (Reachable.new 4096 PageType.LeafPage false 0) (by decide) (by decide)),
    C4_invariants_amended.2 c4Leaf
      ⟨by decide, by decide, by decide, by decide, by decide, by decide⟩⟩

/-! Claims C1, C2, C5: concrete executions of the embedded tree and codec. -/

/-- A disk holding a flushed empty leaf page at offset 0. -/
def emptyLeafDisk : Disk :=
  (LeafPage.mk (Page.new (NodeMeta.new 4096 PageType.LeafPage false 0 0))).flush_to_disk
    zeroDisk 0

/-- Tree with one leaf at offset 0 under logical page id 42 and no mini-page. -/
def c1Tree : BfTree :=
  ⟨MappingTable.new.insert 42 none 0, InnerNode.mock_single_child 42, []⟩

/-- First GET of the absent key `[97]` with the negative-cache draw taken:
misses and admits a Phantom record into a fresh mini-page. -/
def c1AfterNegGet : Option (BfTree × Option (List Nat)) :=
  BfTree.get c1Tree emptyLeafDisk [97] false true

/-- C1 (code bug): a GET whose mini-page search hits a Phantom record returns
the record's (empty) value instead of none. The first GET of the absent key
`[97]` admits a Phantom record (type_flag 3) into the mini-page and returns
none; the second GET hits that record in the mini-page and returns
`some []` — the source returns a mini-page hit's value without inspecting
its type, so the claim's Phantom and Tombstone arms do not exist in the
code. -/
theorem C1_phantom_hit_bug :
    (c1AfterNegGet.map fun r => r.2) = some none ∧
    (c1AfterNegGet.bind fun r =>
      (r.1.mapping_table.get 42).bind fun e =>
        e.1.map fun m => m.page.kv_metas.map fun kv => kv.type_flag) = some [3] ∧
    ((c1AfterNegGet.bind fun r => BfTree.get r.1 emptyLeafDisk [97] false false).map
      fun r => r.2) = some (some []) := by decide

/-- Tree with one leaf at offset 0 under logical page id 99 and no mini-page. -/
def c2Tree : BfTree :=
  ⟨MappingTable.new.insert 99 none 0, InnerNode.mock_single_child 99, []⟩

/-- A 1-byte key and a 52-byte value: 65 projected bytes against the fresh
mini-page's 64, so the fresh mini-page rejects the pair. -/
def c2Key : List Nat := [5]

def c2Value : List Nat := List.replicate 52 1

/-- C2 (code bug): a PUT whose pair does not fit a fresh minimum-sized
mini-page is silently dropped — the new mini-page is not registered and no
growth or merge happens — so the immediately following GET returns none
instead of `Some(v)`. -/
theorem C2_lost_write_bug :
    BfTree.insert c2Tree c2Key c2Value = some c2Tree ∧
    ((BfTree.insert c2Tree c2Key c2Value).bind fun t =>
      (BfTree.get t emptyLeafDisk c2Key false false).map fun r => r.2) = some none := by
  decide

/-- Empty page whose node_size is 64 bytes, the mini-page minimum. -/
def c5Page : Page := Page.new (NodeMeta.new 64 PageType.LeafPage false 0 0)

def c5Key : List Nat := List.replicate 26 1

def c5Value : List Nat := List.replicate 26 2

/-- C5 (code bug): Page::insert checks
`kv_metas.len() * 8 + data.len() + key.len() + value.len() + 12`, omitting
the 8 bytes of the record meta it is about to add. On an empty 64-byte page a
26+26-byte pair passes the check (64 ≤ 64), is admitted, and the page then
occupies 12 + 8·1 + 52 = 72 > 64 bytes, violating the claimed size bound. -/
theorem C5_size_guard_bug :
    (c5Page.insert c5Key c5Value none).2 = true ∧
    12 + 8 * (c5Page.insert c5Key c5Value none).1.kv_metas.length +
      (c5Page.insert c5Key c5Value none).1.data.length = 72 ∧
    (c5Page.insert c5Key c5Value none).1.node_meta.node_size = 64 := by decide

/-! Claim C7. -/

/-- Record meta whose `lookahead` uses its 16th bit. -/
def c7Meta : KVMeta := ⟨5, 3, 10, 2, false, 1, 32768⟩

/-- C7 counterexample: `lookahead = 2^15` does not survive the round-trip.
The `u64` shift `lookahead << 49` discards bits 64 and 65 of the nominal
49..65 field range, so the serialized word keeps only 15 bits of `lookahead`
and deserialization returns 0. -/
theorem C7_lookahead_counterexample :
    KVMeta.deserialize (KVMeta.serialize c7Meta) ≠ c7Meta ∧
    (KVMeta.deserialize (KVMeta.serialize c7Meta)).lookahead = 0 := by decide

/-- C7 (amended): serializing a record meta whose fields are within their
declared widths and whose `lookahead` is below `2^15` (not `2^16`: the top
bit of the nominal 16-bit field falls outside the 64-bit word) and
deserializing the 8 bytes yields the identical record meta, `lookahead`
included. -/
theorem C7_roundtrip_amended (m : KVMeta)
    (h1 : m.key_size < 16384) (h2 : m.value_size < 16384) (h3 : m.offset < 65536)
    (h4 : m.type_flag < 4) (h5 : m.ref_flag < 4) (h6 : m.lookahead < 32768) :
    KVMeta.deserialize m.serialize = m :=
  kvMeta_deserialize_serialize m h1 h2 h3 h4 h5 h6


/-- Witness for C7: the amended round-trip applied at a concrete meta whose
`lookahead` fills all 15 surviving bits. -/
theorem C7_roundtrip_amended_witness :
    KVMeta.deserialize (KVMeta.serialize ⟨16383, 100, 65535, 3, true, 2, 32767⟩) =
      ⟨16383, 100, 65535, 3, true, 2, 32767⟩ :=
  C7_roundtrip_amended ⟨16383, 100, 65535, 3, true, 2, 32767⟩ (by decide) (by decide)
    (by decide) (by decide) (by decide) (by decide)

/-! Claim C6: leaf flush/load round-trip. -/

theorem flat_length (ms : List KVMeta) :
    (ms.map KVMeta.serialize).flatten.length = 8 * ms.length := by
  induction ms with
  | nil => simp
  | cons m ms ih =>
    simp only [List.map_cons, List.flatten_cons, List.length_append, ih,
      kvMeta_serialize_length m, List.length_cons]
    ring

theorem flat_chunk (ms : List KVMeta) :
    ∀ i (hi : i < ms.length),
      (((ms.map KVMeta.serialize).flatten.drop (8 * i)).take 8) =
        KVMeta.serialize ms[i] := by
  induction ms with
  | nil => intro i hi; simp at hi
  | cons m ms ih =>
    intro i hi
    cases i with
    | zero =>
      simp only [List.map_cons, List.flatten_cons, Nat.mul_zero, List.drop_zero]
      rw [show (8 : Nat) = (KVMeta.serialize m).length from
        (kvMeta_serialize_length m).symm, List.take_left]
      simp
    | succ i =>
      simp only [List.map_cons, List.flatten_cons]
      have h8 : 8 * (i + 1) = (KVMeta.serialize m).length + 8 * i := by
        rw [kvMeta_serialize_length]
        ring
      rw [h8, List.drop_append]
      exact ih i (by simpa using hi)

theorem serializePage_length (p : Page) :
    (serializePage p).length = 12 + 8 * p.kv_metas.length + p.data.length := by
  unfold serializePage
  rw [List.length_append, List.length_append, nodeMeta_serialize_length, flat_length]

/-- Segments of the on-disk image: header, meta chunks and heap, as flush
lays them out and load reads them back. -/
theorem serializePage_segments (p : Page) :
    ((serializePage p).take 12 = p.node_meta.serialize) ∧
    (∀ i (hi : i < p.kv_metas.length),
      ((serializePage p).drop (12 + 8 * i)).take 8 = KVMeta.serialize p.kv_metas[i]) ∧
    ((serializePage p).drop (12 + 8 * p.kv_metas.length) = p.data) := by
  refine ⟨?_, ?_, ?_⟩
  · unfold serializePage
    rw [show (12 : Nat) = (p.node_meta.serialize).length from
      (nodeMeta_serialize_length p.node_meta).symm]
    rw [List.append_assoc, List.take_left]
  · intro i hi
    unfold serializePage
    rw [List.append_assoc]
    rw [show 12 + 8 * i = (p.node_meta.serialize).length + 8 * i by
      rw [nodeMeta_serialize_length p.node_meta]]
    rw [List.drop_append]
    rw [List.drop_append_of_le_length (by rw [flat_length]; omega)]
    rw [List.take_append_of_le_length (by
      rw [List.length_drop, flat_length]
      omega)]
    exact flat_chunk p.kv_metas i hi
  · unfold serializePage
    rw [List.append_assoc]
    rw [show 12 + 8 * p.kv_metas.length =
      (p.node_meta.serialize).length + 8 * p.kv_metas.length by
      rw [nodeMeta_serialize_length p.node_meta]]
    rw [List.drop_append]
    rw [show 8 * p.kv_metas.length = (p.kv_metas.map KVMeta.serialize).flatten.length
      from (flat_length p.kv_metas).symm]
    exact List.drop_left _ _

/-- C6 (amended): flushing a leaf page at an offset and loading from that
offset yields a page identical in every respect — `record_count`, key and
value bytes, all `node_meta` fields, and every record meta including its
`ref_flag`, which the load preserves rather than clears — provided the page
is internally consistent (count matches the metas, the heap length is the
total of the meta sizes) and every stored number fits its on-disk field
(`node_size`, `record_count` 16 bits, `leaf` 48 bits, meta fields at their
declared widths with `lookahead < 2^15`). -/
theorem C6_roundtrip_amended (lp : LeafPage) (d : Disk) (off : Nat)
    (hcl : lp.page.node_meta.record_count = lp.page.kv_metas.length)
    (hns : lp.page.node_meta.node_size < 65536)
    (hrc : lp.page.node_meta.record_count < 65536)
    (hlf : lp.page.node_meta.leaf < 2 ^ 48)
    (hm : ∀ m ∈ lp.page.kv_metas, m.key_size < 16384 ∧ m.value_size < 16384 ∧
      m.offset < 65536 ∧ m.type_flag < 4 ∧ m.ref_flag < 4 ∧ m.lookahead < 32768)
    (hdata : (lp.page.kv_metas.map fun m => m.key_size + m.value_size).sum =
      lp.page.data.length) :
    LeafPage.load_from_disk (lp.flush_to_disk d off) off = lp := by
  obtain ⟨hseg1, hseg2, hseg3⟩ := serializePage_segments lp.page
  have hlen := serializePage_length lp.page
  have hread : ∀ a n, a + n ≤ (serializePage lp.page).length →
      readBytes (lp.flush_to_disk d off) (off + a) n =
        ((serializePage lp.page).drop a).take n := by
    intro a n h
    exact readBytes_writeBytes d off (serializePage lp.page) a n h
  have hhdr : readBytes (lp.flush_to_disk d off) off 12 = lp.page.node_meta.serialize := by
    have := hread 0 12 (by omega)
    simpa [hseg1] using this
  have hnm : NodeMeta.deserialize (readBytes (lp.flush_to_disk d off) off 12) =
      lp.page.node_meta := by
    rw [hhdr]
    exact nodeMeta_deserialize_serialize lp.page.node_meta hns hrc hlf
  have hkv : ∀ i (hi : i < lp.page.kv_metas.length),
      KVMeta.deserialize (readBytes (lp.flush_to_disk d off) (off + (12 + 8 * i)) 8) =
        lp.page.kv_metas[i] := by
    intro i hi
    rw [hread (12 + 8 * i) 8 (by omega), hseg2 i hi]
    obtain ⟨b1, b2, b3, b4, b5, b6⟩ := hm lp.page.kv_metas[i] (List.getElem_mem hi)
    exact kvMeta_deserialize_serialize _ b1 b2 b3 b4 b5 b6
  have hkvs : (List.range lp.page.node_meta.record_count).map (fun i =>
      KVMeta.deserialize (readBytes (lp.flush_to_disk d off) (off + 12 + 8 * i) 8)) =
      lp.page.kv_metas := by
    apply List.ext_getElem
    · simp [hcl]
    · intro i h1 h2
      have hi : i < lp.page.kv_metas.length := by simpa using h2
      simp only [List.getElem_map, List.getElem_range]
      rw [show off + 12 + 8 * i = off + (12 + 8 * i) by omega]
      exact hkv i hi
  have hdt : readBytes (lp.flush_to_disk d off)
      (off + (12 + 8 * lp.page.kv_metas.length)) lp.page.data.length = lp.page.data := by
    rw [hread (12 + 8 * lp.page.kv_metas.length) lp.page.data.length (by omega), hseg3]
    exact List.take_length lp.page.data
  unfold LeafPage.load_from_disk
  simp only [hnm]
  rw [hkvs, hdata, hcl]
  rw [show off + 12 + 8 * lp.page.kv_metas.length =
    off + (12 + 8 * lp.page.kv_metas.length) by omega]
  rw [hdt]

/-- Leaf page with one record whose `ref_flag` was set by a lookup. -/
def c6Leaf : LeafPage :=
  (LeafPage.binary_search
    ⟨((Page.new (NodeMeta.new 4096 PageType.LeafPage false 0 0)).insert
        [9] [3] none).1⟩ [9]).1

/-- C6 counterexample: the load does not clear `ref_flag`. A leaf holding one
record with `ref_flag = 1`, flushed and reloaded, still has `ref_flag = 1`:
the flag round-trips through bits 47..48 of the meta word. -/
theorem C6_ref_flag_counterexample :
    (LeafPage.load_from_disk (c6Leaf.flush_to_disk zeroDisk 0)
        0).page.kv_metas.map (fun m => m.ref_flag) = [1] ∧
    c6Leaf.page.kv_metas.map (fun m => m.ref_flag) = [1] := by decide

/-- Witness for C6: the amended round-trip applied to the concrete one-record
leaf with a set `ref_flag`. -/
theorem C6_roundtrip_amended_witness :
    LeafPage.load_from_disk (c6Leaf.flush_to_disk zeroDisk 0) 0 = c6Leaf :=
  C6_roundtrip_amended c6Leaf zeroDisk 0 (by decide) (by decide) (by decide) (by decide)
    (by decide) (by decide)

/-! Claim C8: inner-node routing. -/

theorem lexLt_of_le_of_lt {a b t : List Nat} (h1 : lexLe a b) (h2 : lexLt b t) :
    lexLt a t := by
  rcases hc : lexCmp a t with _ | _ | _
  · exact hc
  · exfalso
    have : a = t := lexCmp_eq_iff.mp hc
    subst this
    exact not_lexLe_of_lexLt h2 h1
  · exfalso
    have h3 : lexLt t a := lexLt_of_gt hc
    have h4 : lexLt t b := lt_trans_le h3 h1
    exact not_lexLe_of_lexLt h4 (lexLe_of_lexLt h2)

/-- Correctness of the InnerNode::find_child_page_id loop on strictly sorted
separator keys: a hit names an index holding exactly the key, and a miss
terminates at the insertion point, with every separator below strictly less
than the key and every separator at or above strictly greater. -/
theorem icGo_spec (keys : List (List Nat)) (target : List Nat)
    (hsort : List.Pairwise lexLt keys) :
    ∀ fuel left right, right ≤ keys.length → left ≤ right → right - left < fuel →
      (∀ i, i < left → lexCmp target (keys.getD i []) = Ordering.gt) →
      (∀ i, right ≤ i → i < keys.length → lexCmp target (keys.getD i []) = Ordering.lt) →
      (∀ hit, icGo keys target fuel left right = Sum.inl hit →
        hit < keys.length ∧ keys.getD hit [] = target) ∧
      (∀ fin, icGo keys target fuel left right = Sum.inr fin →
        fin ≤ keys.length ∧
        (∀ i, i < fin → lexCmp target (keys.getD i []) = Ordering.gt) ∧
        (∀ i, fin ≤ i → i < keys.length → lexCmp target (keys.getD i []) = Ordering.lt)) := by
  have hmono : ∀ i j, i ≤ j → j < keys.length → lexLe (keys.getD i []) (keys.getD j []) := by
    intro i j hij hj
    rcases Nat.lt_or_ge i j with hlt | hge
    · have hi : i < keys.length := by omega
      rw [List.getD_eq_getElem _ _ hi, List.getD_eq_getElem _ _ hj]
      exact lexLe_of_lexLt (List.pairwise_iff_getElem.mp hsort i j hi hj hlt)
    · have : i = j := by omega
      subst this
      exact lexLe_refl _
  intro fuel
  induction fuel with
  | zero => intro left right _ _ h3 _ _; omega
  | succ fuel ih =>
    intro left right h1 h2 h3 hlow hhigh
    by_cases hlr : left < right
    · rcases hc : lexCmp target (keys.getD ((left + right) / 2) []) with _ | _ | _
      · -- target < separator: recurse left of mid
        have hstep : icGo keys target (fuel + 1) left right =
            icGo keys target fuel left ((left + right) / 2) := by
          simp only [icGo, hlr, if_true]
          rw [hc]
        rw [hstep]
        apply ih left ((left + right) / 2) (by omega) (by omega) (by omega) hlow
        intro i hi1 hi2
        have hle := hmono ((left + right) / 2) i hi1 hi2
        exact lt_trans_le hc hle
      · -- hit
        have hstep : icGo keys target (fuel + 1) left right =
            Sum.inl ((left + right) / 2) := by
          simp only [icGo, hlr, if_true]
          rw [hc]
        rw [hstep]
        constructor
        · intro hit hh
          cases hh
          exact ⟨by omega, (lexCmp_eq_iff.mp hc).symm⟩
        · intro fin hh
          cases hh
      · -- target > separator: recurse right of mid
        have hstep : icGo keys target (fuel + 1) left right =
            icGo keys target fuel ((left + right) / 2 + 1) right := by
          simp only [icGo, hlr, if_true]
          rw [hc]
        rw [hstep]
        apply ih ((left + right) / 2 + 1) right (by omega) (by omega) (by omega)
        · intro i hi
          rcases Nat.lt_or_ge i left with hil | hil
          · exact hlow i hil
          · have hi2 : i ≤ (left + right) / 2 := by omega
            have hle := hmono i ((left + right) / 2) hi2 (by omega)
            exact gt_of_lexLt (lexLt_of_le_of_lt hle (lexLt_of_gt hc))
        · exact hhigh
    · have hstep : icGo keys target (fuel + 1) left right = Sum.inr left := by
        simp [icGo, hlr]
      rw [hstep]
      constructor
      · intro hit hh
        cases hh
      · intro fin hh
        cases hh
        refine ⟨by omega, hlow, ?_⟩
        intro i hi1 hi2
        exact hhigh i (by omega) hi2

/-- C8: for every inner node with strictly sorted separator keys and
`len(children) = len(sorted_keys) + 1`, `find_child` returns the child at
index `#{i | sorted_keys[i] ≤ k}`: a hit at `m` yields `children[m + 1]`, a
miss with insertion position `left` yields `children[left]`, an empty
separator list yields the single child, and the returned index `i` satisfies
the routing interval `sorted_keys[i-1] ≤ k < sorted_keys[i]` (each bound
present only when that separator exists). -/
theorem C8_find_child_routing (n : InnerNode) (key : List Nat)
    (hsort : List.Pairwise lexLt n.keys)
    (hch : n.children.length = n.keys.length + 1) :
    n.find_child_page_id key =
      some (n.children.getD (n.keys.countP fun s => decide (lexLe s key)) 0) ∧
    (n.keys.countP fun s => decide (lexLe s key)) ≤ n.keys.length ∧
    ((n.keys.countP fun s => decide (lexLe s key)) = 0 ∨
      lexLe (n.keys.getD ((n.keys.countP fun s => decide (lexLe s key)) - 1) []) key) ∧
    ((n.keys.countP fun s => decide (lexLe s key)) = n.keys.length ∨
      lexLt key (n.keys.getD (n.keys.countP fun s => decide (lexLe s key)) [])) := by
  by_cases hemp : n.keys.isEmpty
  · have hkeys : n.keys = [] := List.isEmpty_iff.mp hemp
    have hcnt : (n.keys.countP fun s => decide (lexLe s key)) = 0 := by
      rw [hkeys]; rfl
    have hfc : n.find_child_page_id key = n.children[0]? := by
      unfold InnerNode.find_child_page_id
      rw [if_pos hemp]
    rw [hfc, hcnt]
    have h0 : 0 < n.children.length := by omega
    refine ⟨?_, by omega, Or.inl rfl, Or.inl (by rw [hkeys]; rfl)⟩
    rw [List.getElem?_eq_getElem h0, List.getD_eq_getElem _ _ h0]
  · have hlen0 : 0 < n.keys.length :=
      List.length_pos.mpr (fun h => hemp (by rw [h]; rfl))
    obtain ⟨hinl, hinr⟩ := icGo_spec n.keys key hsort (n.keys.length + 1) 0
      n.keys.length (le_refl _) (by omega) (by omega)
      (by intro i hi; omega) (by intro i hi1 hi2; omega)
    have hfc : n.find_child_page_id key =
        (match icGo n.keys key (n.keys.length + 1) 0 n.keys.length with
          | Sum.inl mid => n.children[mid + 1]?
          | Sum.inr left => if left = 0 then n.children[0]? else n.children[left]?) := by
      unfold InnerNode.find_child_page_id
      rw [if_neg hemp]
    rcases hgo : icGo n.keys key (n.keys.length + 1) 0 n.keys.length with mid | fin
    · -- hit at mid
      obtain ⟨hmid, hkey⟩ := hinl mid hgo
      have hcnt : (n.keys.countP fun s => decide (lexLe s key)) = mid + 1 := by
        apply countP_of_boundary (by omega)
        · intro i hi hin
          have hle : lexLe n.keys[i] (n.keys.getD mid []) := by
            rw [List.getD_eq_getElem _ _ hmid]
            rcases Nat.lt_or_ge i mid with hlt | hge
            · exact lexLe_of_lexLt (List.pairwise_iff_getElem.mp hsort i mid hi hmid hlt)
            · have : i = mid := by omega
              subst this
              exact lexLe_refl _
          rw [hkey] at hle
          exact decide_eq_true hle
        · intro i hi hin
          have hlt : lexLt (n.keys.getD mid []) n.keys[i] := by
            rw [List.getD_eq_getElem _ _ hmid]
            exact List.pairwise_iff_getElem.mp hsort mid i hmid hi (by omega)
          rw [hkey] at hlt
          simp only [decide_eq_true_eq]
          exact not_lexLe_of_lexLt hlt
      have hfc2 : n.find_child_page_id key = n.children[mid + 1]? := by
        rw [hfc, hgo]
      rw [hfc2, hcnt]
      have hmid1 : mid + 1 < n.children.length := by omega
      refine ⟨?_, by omega, ?_, ?_⟩
      · rw [List.getElem?_eq_getElem hmid1, List.getD_eq_getElem _ _ hmid1]
      · right
        simp only [Nat.add_sub_cancel]
        rw [hkey]
        exact lexLe_refl _
      · rcases Nat.lt_or_ge (mid + 1) n.keys.length with hlt | hge
        · right
          have := List.pairwise_iff_getElem.mp hsort mid (mid + 1) hmid hlt (by omega)
          rw [List.getD_eq_getElem _ _ hlt]
          rw [List.getD_eq_getElem _ _ hmid] at hkey
          rw [← hkey]
          exact this
        · left
          omega
    · -- miss at fin
      obtain ⟨hfin, hgt, hlt⟩ := hinr fin hgo
      have hcnt : (n.keys.countP fun s => decide (lexLe s key)) = fin := by
        apply countP_of_boundary hfin
        · intro i hi hin
          have hlt0 := lexLt_of_gt (hgt i hin)
          rw [List.getD_eq_getElem _ _ hi] at hlt0
          exact decide_eq_true (lexLe_of_lexLt hlt0)
        · intro i hi hin
          simp only [decide_eq_true_eq]
          have := hlt i hin hi
          rw [List.getD_eq_getElem _ _ hi] at this
          exact not_lexLe_of_lexLt this
      have hfc2 : n.find_child_page_id key =
          (if fin = 0 then n.children[0]? else n.children[fin]?) := by
        rw [hfc, hgo]
      rw [hfc2, hcnt]
      have hfin2 : fin < n.children.length := by omega
      have hget : (if fin = 0 then n.children[0]? else n.children[fin]?) =
          some (n.children.getD fin 0) := by
        by_cases h0 : fin = 0
        · subst h0
          rw [if_pos rfl, List.getElem?_eq_getElem hfin2, List.getD_eq_getElem _ _ hfin2]
        · rw [if_neg h0, List.getElem?_eq_getElem hfin2, List.getD_eq_getElem _ _ hfin2]
      refine ⟨hget, by omega, ?_, ?_⟩
      · rcases Nat.eq_zero_or_pos fin with h0 | h0
        · exact Or.inl h0
        · right
          exact lexLe_of_lexLt (lexLt_of_gt (hgt (fin - 1) (by omega)))
      · rcases Nat.lt_or_ge fin n.keys.length with hlt2 | hge
        · right
          exact hlt fin (le_refl _) hlt2
        · left
          omega

/-- Inner node with two separators and three children for the C8 witness. -/
def c8Node : InnerNode := ⟨[[3], [6]], [10, 20, 30]⟩

/-- Witness for C8: routing applied at a concrete inner node; the key `[6]`
hits the second separator and routes to the third child, index 2 = #{s ≤ k}. -/
theorem C8_find_child_routing_witness :
    c8Node.find_child_page_id [6] =
      some (c8Node.children.getD (c8Node.keys.countP fun s => decide (lexLe s [6])) 0) ∧
    (c8Node.keys.countP fun s => decide (lexLe s [6])) ≤ c8Node.keys.length ∧
    ((c8Node.keys.countP fun s => decide (lexLe s [6])) = 0 ∨
      lexLe (c8Node.keys.getD ((c8Node.keys.countP fun s => decide (lexLe s [6])) - 1) [])
        [6]) ∧
    ((c8Node.keys.countP fun s => decide (lexLe s [6])) = c8Node.keys.length ∨
      lexLt [6] (c8Node.keys.getD (c8Node.keys.countP fun s => decide (lexLe s [6])) [])) :=
  C8_find_child_routing c8Node [6] (by decide) (by decide)

/-! Claims C9 and C10. -/

/-- C9: LeafPage::split leaves the receiver unchanged — after the call the
receiver's header, record metas and data heap are exactly what they were
before. The embedding threads the `&mut self` receiver through the result
and returns it untouched because the source body only reads it; the function
takes no disk and performs no write — persisting the halves is entirely the
caller's separate `flush_to_disk` calls. -/
theorem C9_split_receiver_frame (lp : LeafPage) :
    lp.split.1 = lp ∧
    lp.split.1.page.node_meta = lp.page.node_meta ∧
    lp.split.1.page.kv_metas = lp.page.kv_metas ∧
    lp.split.1.page.data = lp.page.data :=
  ⟨rfl, rfl, rfl, rfl⟩

/-- Page whose node_size (65535, the u16 maximum) admits a 16384-byte key. -/
def c10Page : Page := Page.new (NodeMeta.new 65535 PageType.LeafPage false 0 0)

def c10Key : List Nat := List.replicate 16384 97

def c10Value : List Nat := [98]

/-- C10: the codec does not enforce the 14-bit length limit. Inserting a
16384-byte key into a page large enough to hold the bytes returns true, but
the stored `key_size` is `16384 % 2^14 = 0`, so the meta no longer describes
the heap: reading the record's key through the meta yields the empty slice,
not the inserted key. -/
theorem C10_oversized_key_truncation :
    (c10Page.insert c10Key c10Value none).2 = true ∧
    ((c10Page.insert c10Key c10Value none).1.kv_metas.getD 0 default).key_size =
      c10Key.length % 16384 ∧
    c10Key.length % 16384 = 0 ∧
    16384 ≤ c10Key.length ∧
    keyAt (c10Page.insert c10Key c10Value none).1.data
      ((c10Page.insert c10Key c10Value none).1.kv_metas.getD 0 default) ≠ c10Key := by
  have hkl : c10Key.length = 16384 := by
    unfold c10Key
    rw [List.length_replicate]
  have hvl : c10Value.length = 1 := by
    unfold c10Value
    rfl
  have hfit : c10Page.kv_metas.length * 8 + c10Page.data.length + c10Key.length +
      c10Value.length + 12 ≤ c10Page.node_meta.node_size := by
    simp only [c10Page, Page.new, NodeMeta.new, hkl, hvl]
    norm_num
  rw [Page.insert_of_fits hfit]
  have hk0 : (KVMeta.new c10Key.length c10Value.length 0 0 false 0 0).key_size = 0 := by
    simp only [KVMeta.new, hkl]
  refine ⟨rfl, ?_, ?_, ?_, ?_⟩
  · show (KVMeta.new c10Key.length c10Value.length 0 0 false 0 0).key_size =
      c10Key.length % 16384
    simp only [KVMeta.new]
    exact Nat.mod_mod_of_dvd _ (by norm_num)
  · rw [hkl]
  · rw [hkl]
  · show keyAt (c10Page.data ++ c10Key ++ c10Value)
        (KVMeta.new c10Key.length c10Value.length 0 0 false 0 0) ≠ c10Key
    have hempty : keyAt (c10Page.data ++ c10Key ++ c10Value)
        (KVMeta.new c10Key.length c10Value.length 0 0 false 0 0) = [] := by
      unfold keyAt slice
      rw [hk0]
      exact List.take_zero _
    intro h
    rw [hempty] at h
    have hcontr := congrArg List.length h
    rw [hkl] at hcontr
    simp at hcontr

/-! Claim C3: helper lemmas for the merge model. -/

theorem RecordType.toU8_ofU8 (n : Nat) : (RecordType.ofU8 n).toU8 = n % 4 := by
  have h : n % 4 < 4 := Nat.mod_lt _ (by norm_num)
  unfold RecordType.ofU8
  rcases hm : n % 4 with _ | _ | _ | _ | m
  · rfl
  · rfl
  · rfl
  · rfl
  · omega

/-- Total key and value bytes of a record list. -/
def sumKV (rs : List MergeRecord) : Nat := (rs.map fun r => r.key.length + r.value.length).sum

/-- Stored form of a re-inserted record: the two-bit type and a clear
`ref_flag`. -/
def recAsStored (r : MergeRecord) : MergeRecord := ⟨r.key, r.value, r.type_flag % 4, 0⟩

/-- Inserting a pair whose key exceeds every stored key lands at the end of
the metas; the whole result of Page::insert is spelled out. -/
theorem insert_append_spec {p : Page} {k v : List Nat} {rt : Option RecordType}
    (hfit : p.kv_metas.length * 8 + p.data.length + k.length + v.length + 12 ≤
      p.node_meta.node_size)
    (hb : metaBounds p)
    (hall : ∀ i (hi : i < p.kv_metas.length), lexLt (keyAt p.data p.kv_metas[i]) k) :
    p.insert k v rt =
      (⟨{ p.node_meta with record_count := (p.node_meta.record_count + 1) % 65536 },
        p.kv_metas ++ [KVMeta.new k.length v.length (p.data.length % 65536)
          (insertTypeFlag rt) false 0 0],
        p.data ++ k ++ v⟩, true) := by
  rw [Page.insert_of_fits hfit]
  have hcm : ∀ i (hi : i < p.kv_metas.length),
      lexCmp (keyAt (p.data ++ k ++ v) (p.kv_metas.getD i default)) k = Ordering.lt := by
    intro i hi
    rw [List.getD_eq_getElem _ _ hi]
    have hbi := hb p.kv_metas[i] (List.getElem_mem hi)
    rw [show p.data ++ k ++ v = p.data ++ (k ++ v) from List.append_assoc p.data k v,
      keyAt_append (by omega)]
    exact hall i hi
  have hM1 : ∀ i j, i ≤ j → j < p.kv_metas.length →
      lexCmp (keyAt (p.data ++ k ++ v) (p.kv_metas.getD i default)) k = Ordering.gt →
      lexCmp (keyAt (p.data ++ k ++ v) (p.kv_metas.getD j default)) k = Ordering.gt := by
    intro i j hij hj hgt
    rw [hcm i (by omega)] at hgt
    cases hgt
  obtain ⟨hp1, _, hp3⟩ := insertPosOf_spec
    (fun i => lexCmp (keyAt (p.data ++ k ++ v) (p.kv_metas.getD i default)) k)
    p.kv_metas.length hM1
  have hpos : insertPosOf
      (fun i => lexCmp (keyAt (p.data ++ k ++ v) (p.kv_metas.getD i default)) k)
      p.kv_metas.length = p.kv_metas.length := by
    by_contra hne
    have hlt : insertPosOf
        (fun i => lexCmp (keyAt (p.data ++ k ++ v) (p.kv_metas.getD i default)) k)
        p.kv_metas.length < p.kv_metas.length := by omega
    exact hp3 _ (le_refl _) hlt (hcm _ hlt)
  rw [hpos, List.insertIdx_length_self]

/-- Records of a page after one appended insert: the old records survive
verbatim and the new pair appears last with the masked type and a clear
`ref_flag`. -/
theorem records_append (nm : NodeMeta) (metas : List KVMeta) (data k v : List Nat)
    (tfu : Nat)
    (hb : ∀ m ∈ metas, m.offset + m.key_size + m.value_size ≤ data.length)
    (hk : k.length < 16384) (hv : v.length < 16384) (hdl : data.length < 65536) :
    (Page.mk nm (metas ++ [KVMeta.new k.length v.length (data.length % 65536) tfu
      false 0 0]) (data ++ k ++ v)).records =
      (Page.mk nm metas data).records ++ [⟨k, v, tfu % 256 % 4, 0⟩] := by
  unfold Page.records
  simp only [List.map_append, List.map_cons, List.map_nil]
  congr 1
  · apply List.map_congr_left
    intro m hm
    have hbm := hb m hm
    rw [show data ++ k ++ v = data ++ (k ++ v) from List.append_assoc data k v]
    rw [keyAt_append (by omega), valueAt_append (by omega)]
  · have hoff : (KVMeta.new k.length v.length (data.length % 65536) tfu
        false 0 0).offset = data.length := by
      simp only [KVMeta.new]
      omega
    have hks : (KVMeta.new k.length v.length (data.length % 65536) tfu
        false 0 0).key_size = k.length := by
      simp only [KVMeta.new]
      omega
    have hvs : (KVMeta.new k.length v.length (data.length % 65536) tfu
        false 0 0).value_size = v.length := by
      simp only [KVMeta.new]
      omega
    have h1 : keyAt (data ++ k ++ v) (KVMeta.new k.length v.length
        (data.length % 65536) tfu false 0 0) = k := by
      unfold keyAt
      rw [hoff, hks]
      exact slice_key_self data k v
    have h2 : valueAt (data ++ k ++ v) (KVMeta.new k.length v.length
        (data.length % 65536) tfu false 0 0) = v := by
      unfold valueAt
      rw [hoff, hks, hvs]
      exact slice_value_self data k v
    rw [h1, h2]
    rfl

/-- Clearing every ref bit of a page's metas clears it in the records and
changes nothing else. -/
theorem records_clearRef (p : Page) :
    (Page.mk p.node_meta (p.kv_metas.map fun m => { m with ref_flag := 0 })
        p.data).records = p.records.map fun r => { r with ref_flag := 0 } := by
  unfold Page.records
  simp only [List.map_map]
  rfl

/-- Keys of the record view are the page keys. -/
theorem records_keys (p : Page) : p.records.map (fun r => r.key) = pageKeys p := by
  unfold Page.records pageKeys
  rw [List.map_map]
  rfl

/-- Re-inserting records with strictly increasing keys, all above the page's
keys, appends them in order: the resulting record view is the old one
followed by the stored forms of the inserted records. -/
theorem foldl_insert_records :
    ∀ (recs : List MergeRecord) (pg : Page),
      pg.node_meta.node_size < 65536 →
      metaBounds pg →
      (∀ r ∈ recs, r.key.length < 16384 ∧ r.value.length < 16384) →
      (∀ i (hi : i < pg.kv_metas.length), ∀ r ∈ recs,
        lexLt (keyAt pg.data pg.kv_metas[i]) r.key) →
      List.Pairwise (fun a b => lexLt a.key b.key) recs →
      8 * (pg.kv_metas.length + recs.length) + pg.data.length + sumKV recs + 12 ≤
        pg.node_meta.node_size + 8 →
      (recs.foldl (fun q r => (q.insert r.key r.value
          (some (RecordType.ofU8 r.type_flag))).1) pg).records =
        pg.records ++ recs.map recAsStored := by
  intro recs
  induction recs with
  | nil => intro pg _ _ _ _ _ _; simp
  | cons r rest ih =>
    intro pg hns hb hszs hall hpair hfit
    have hkr : r.key.length < 16384 := (hszs r (List.mem_cons_self r rest)).1
    have hvr : r.value.length < 16384 := (hszs r (List.mem_cons_self r rest)).2
    have hsum0 : sumKV (r :: rest) = r.key.length + r.value.length + sumKV rest := by
      simp [sumKV]
    rw [hsum0] at hfit
    simp only [List.length_cons] at hfit
    have hfit1 : pg.kv_metas.length * 8 + pg.data.length + r.key.length +
        r.value.length + 12 ≤ pg.node_meta.node_size := by omega
    have hdl : pg.data.length < 65536 := by omega
    have hallr : ∀ i (hi : i < pg.kv_metas.length),
        lexLt (keyAt pg.data pg.kv_metas[i]) r.key := by
      intro i hi
      exact hall i hi r (List.mem_cons_self r rest)
    have happ := @insert_append_spec pg r.key r.value
      (some (RecordType.ofU8 r.type_flag)) hfit1 hb hallr
    simp only [List.foldl_cons]
    rw [show (pg.insert r.key r.value (some (RecordType.ofU8 r.type_flag))).1 =
      (⟨{ pg.node_meta with record_count := (pg.node_meta.record_count + 1) % 65536 },
        pg.kv_metas ++ [KVMeta.new r.key.length r.value.length (pg.data.length % 65536)
          (insertTypeFlag (some (RecordType.ofU8 r.type_flag))) false 0 0],
        pg.data ++ r.key ++ r.value⟩ : Page) from congrArg Prod.fst happ]
    set newm := KVMeta.new r.key.length r.value.length (pg.data.length % 65536)
      (insertTypeFlag (some (RecordType.ofU8 r.type_flag))) false 0 0 with hnewm
    have hoff : newm.offset = pg.data.length := by
      simp only [hnewm, KVMeta.new]
      omega
    have hks : newm.key_size = r.key.length := by
      simp only [hnewm, KVMeta.new]
      omega
    have hvs : newm.value_size = r.value.length := by
      simp only [hnewm, KVMeta.new]
      omega
    have hkeynew : keyAt (pg.data ++ r.key ++ r.value) newm = r.key := by
      unfold keyAt
      rw [hoff, hks]
      exact slice_key_self pg.data r.key r.value
    have hih := ih (⟨{ pg.node_meta with
        record_count := (pg.node_meta.record_count + 1) % 65536 },
        pg.kv_metas ++ [newm], pg.data ++ r.key ++ r.value⟩ : Page)
      hns
      (by
        intro m hm
        simp only [List.length_append, List.length_append]
        rcases List.mem_append.mp hm with hmem | hmem
        · have := hb m hmem
          omega
        · have : m = newm := by simpa using hmem
          subst this
          rw [hoff, hks, hvs])
      (by
        intro r2 hr2
        exact hszs r2 (List.mem_cons_of_mem r hr2))
      (by
        intro i hi r2 hr2
        have hi2 : i < (pg.kv_metas ++ [newm]).length := hi
        show lexLt (keyAt (pg.data ++ r.key ++ r.value)
          ((pg.kv_metas ++ [newm])[i])) r2.key
        rcases Nat.lt_or_ge i pg.kv_metas.length with hilt | hige
        · rw [List.getElem_append_left hilt]
          have hbi := hb pg.kv_metas[i] (List.getElem_mem hilt)
          rw [show pg.data ++ r.key ++ r.value = pg.data ++ (r.key ++ r.value) from
            List.append_assoc pg.data r.key r.value, keyAt_append (by omega)]
          exact hall i hilt r2 (List.mem_cons_of_mem r hr2)
        · have hieq : i = pg.kv_metas.length := by
            simp only [List.length_append, List.length_cons, List.length_nil] at hi2
            omega
          subst hieq
          have hg : (pg.kv_metas ++ [newm])[pg.kv_metas.length] = newm := by
            rw [List.getElem_append_right (le_refl pg.kv_metas.length)]
            simp
          rw [hg, hkeynew]
          exact (List.pairwise_cons.mp hpair).1 r2 hr2)
      ((List.pairwise_cons.mp hpair).2)
      (by
        simp only [List.length_append, List.length_cons, List.length_nil,
          List.length_append]
        omega)
    rw [hih]
    have hrecE : (⟨{ pg.node_meta with
        record_count := (pg.node_meta.record_count + 1) % 65536 },
        pg.kv_metas ++ [newm], pg.data ++ r.key ++ r.value⟩ : Page).records =
        pg.records ++ [⟨r.key, r.value,
          insertTypeFlag (some (RecordType.ofU8 r.type_flag)) % 256 % 4, 0⟩] := by
      rw [hnewm]
      have := records_append ({ pg.node_meta with
          record_count := (pg.node_meta.record_count + 1) % 65536 }) pg.kv_metas
        pg.data r.key r.value (insertTypeFlag (some (RecordType.ofU8 r.type_flag)))
        hb hkr hvr hdl
      rw [this]
      rfl
    rw [hrecE]
    have htf : insertTypeFlag (some (RecordType.ofU8 r.type_flag)) % 256 % 4 =
        r.type_flag % 4 := by
      show (RecordType.ofU8 r.type_flag).toU8 % 256 % 4 = r.type_flag % 4
      rw [RecordType.toU8_ofU8]
      omega
    rw [htf]
    simp [recAsStored]

theorem length_filter3 {α : Type} (l : List α) (q1 q2 q3 : α → Bool)
    (h : ∀ r ∈ l, (q1 r = true ∧ q2 r = false ∧ q3 r = false) ∨
      (q1 r = false ∧ q2 r = true ∧ q3 r = false) ∨
      (q1 r = false ∧ q2 r = false ∧ q3 r = true)) :
    l.length = (l.filter q1).length + (l.filter q2).length + (l.filter q3).length := by
  induction l with
  | nil => rfl
  | cons a l ih =>
    have hrest : ∀ r ∈ l, (q1 r = true ∧ q2 r = false ∧ q3 r = false) ∨
        (q1 r = false ∧ q2 r = true ∧ q3 r = false) ∨
        (q1 r = false ∧ q2 r = false ∧ q3 r = true) :=
      fun r hr => h r (List.mem_cons_of_mem a hr)
    rcases h a (List.mem_cons_self a l) with ⟨h1, h2, h3⟩ | ⟨h1, h2, h3⟩ | ⟨h1, h2, h3⟩ <;>
      simp [List.filter_cons, h1, h2, h3, ih hrest] <;> omega

/-- Size, type and recency facts about the record view of a page. -/
theorem records_facts {p : Page} (hsz : metaSizes p)
    (htf : ∀ m ∈ p.kv_metas, m.type_flag < 4)
    (href : ∀ m ∈ p.kv_metas, m.ref_flag ≤ 1) :
    ∀ r ∈ p.records, r.key.length < 16384 ∧ r.value.length < 16384 ∧
      r.type_flag < 4 ∧ r.ref_flag ≤ 1 := by
  intro r hr
  obtain ⟨m, hm, rfl⟩ := List.mem_map.mp hr
  refine ⟨?_, ?_, htf m hm, href m hm⟩
  · have h1 := (hsz m hm).1
    have h2 := slice_length_le p.data m.offset m.key_size
    show (keyAt p.data m).length < 16384
    unfold keyAt
    omega
  · have h1 := (hsz m hm).2
    have h2 := slice_length_le p.data (m.offset + m.key_size) m.value_size
    show (valueAt p.data m).length < 16384
    unfold valueAt
    omega

/-- C3 (spec-modelled): merge on a mini-page fronting leaf offset `L =
node_meta.leaf`, in the case where every dirty record fits (no split): the
result is exactly (flush of the dirty-applied leaf at `L`, the rebuilt
mini-page, `none`); the rebuilt mini-page's records are exactly the hot set
(`ref_flag == 1`) with every `ref_flag` cleared to 0 and types preserved; and
the hot, dirty (`ref_flag == 0` with type Insert or Tombstone) and discarded
(`ref_flag == 0` with type Cache or Phantom) sets partition the mini-page's
records. -/
theorem C3_merge_no_split (mp : MiniPage) (d : Disk) (nextOff : Nat) (leaf2 : LeafPage)
    (hnosplit : applyDirty (LeafPage.load_from_disk d mp.page.node_meta.leaf)
      (mp.page.records.filter fun r =>
        r.ref_flag == 0 && (r.type_flag == 0 || r.type_flag == 2)) = Sum.inl leaf2)
    (hns : mp.page.node_meta.node_size < 65536)
    (hsort : List.Pairwise lexLt (pageKeys mp.page))
    (hsz : metaSizes mp.page)
    (htf : ∀ m ∈ mp.page.kv_metas, m.type_flag < 4)
    (href : ∀ m ∈ mp.page.kv_metas, m.ref_flag ≤ 1)
    (hfit : 8 * (mp.page.records.filter fun r => r.ref_flag == 1).length +
      sumKV (mp.page.records.filter fun r => r.ref_flag == 1) + 12 ≤
      mp.page.node_meta.node_size + 8) :
    mp.merge d nextOff =
      (leaf2.flush_to_disk d mp.page.node_meta.leaf,
        ⟨rebuildHot mp.page (mp.page.records.filter fun r => r.ref_flag == 1)⟩,
        none) ∧
    (rebuildHot mp.page (mp.page.records.filter fun r => r.ref_flag == 1)).records =
      (mp.page.records.filter fun r => r.ref_flag == 1).map
        (fun r => { r with ref_flag := 0 }) ∧
    mp.page.records.length =
      (mp.page.records.filter fun r => r.ref_flag == 1).length +
      (mp.page.records.filter fun r =>
        r.ref_flag == 0 && (r.type_flag == 0 || r.type_flag == 2)).length +
      (mp.page.records.filter fun r =>
        r.ref_flag == 0 && (r.type_flag == 1 || r.type_flag == 3)).length := by
  have hfacts := records_facts hsz htf href
  refine ⟨?_, ?_, ?_⟩
  · simp only [MiniPage.merge]
    rw [hnosplit]
  · unfold rebuildHot
    have hhotmem : ∀ r ∈ (mp.page.records.filter fun r => r.ref_flag == 1),
        r ∈ mp.page.records := fun r hr => List.mem_of_mem_filter hr
    have hfold := foldl_insert_records
      (mp.page.records.filter fun r => r.ref_flag == 1)
      (clearedOf mp.page)
      hns
      (by intro m hm; simp [clearedOf] at hm)
      (by intro r hr; exact ⟨(hfacts r (hhotmem r hr)).1, (hfacts r (hhotmem r hr)).2.1⟩)
      (by intro i hi; simp [clearedOf] at hi)
      (by
        have h1 : List.Pairwise (fun a b => lexLt a.key b.key) mp.page.records := by
          rw [← List.pairwise_map]
          rw [records_keys]
          exact hsort
        exact h1.filter _)
      (by
        simp only [clearedOf, List.length_nil, Nat.zero_add, Nat.add_zero]
        omega)
    have hclr : (clearedOf mp.page).records = ([] : List MergeRecord) := rfl
    rw [hclr, List.nil_append] at hfold
    rw [records_clearRef, hfold, List.map_map]
    apply List.map_congr_left
    intro r hr
    have htf4 := (hfacts r (List.mem_of_mem_filter hr)).2.2.1
    show MergeRecord.mk (recAsStored r).key (recAsStored r).value
      (recAsStored r).type_flag 0 = MergeRecord.mk r.key r.value r.type_flag 0
    unfold recAsStored
    simp only
    congr 1
    omega
  · apply length_filter3
    intro r hr
    obtain ⟨_, _, htf4, href1⟩ := hfacts r hr
    have hrf : r.ref_flag = 0 ∨ r.ref_flag = 1 := by omega
    have htfc : r.type_flag = 0 ∨ r.type_flag = 1 ∨ r.type_flag = 2 ∨
        r.type_flag = 3 := by omega
    rcases hrf with h0 | h1
    · rcases htfc with ht | ht | ht | ht <;> simp [h0, ht]
    · rcases htfc with ht | ht | ht | ht <;> simp [h1, ht]

/-- A mini-page fronting leaf offset 0 with one hot record (key `[1]`, made
hot by a lookup), one dirty insert (key `[2]`) and one discarded phantom
(key `[3]`). -/
def c3Mini : MiniPage :=
  (((((MiniPage.new 0).insert [1] [10] (some RecordType.Insert)).1.insert
    [2] [20] (some RecordType.Insert)).1.insert
    [3] [] (some RecordType.Phantom)).1.binary_search [1]).1

/-- The leaf obtained by applying the dirty records of `c3Mini` to the empty
leaf at offset 0. -/
def c3Leaf2 : LeafPage :=
  match applyDirty (LeafPage.load_from_disk emptyLeafDisk 0)
      (c3Mini.page.records.filter fun r =>
        r.ref_flag == 0 && (r.type_flag == 0 || r.type_flag == 2)) with
  | Sum.inl l => l
  | Sum.inr p => p.1

/-- C3 witness: the no-split merge contract evaluated on `c3Mini` over the
empty leaf on disk. -/
theorem C3_merge_no_split_witness :
    c3Mini.merge emptyLeafDisk 1 =
      (c3Leaf2.flush_to_disk emptyLeafDisk c3Mini.page.node_meta.leaf,
        ⟨rebuildHot c3Mini.page
          (c3Mini.page.records.filter fun r => r.ref_flag == 1)⟩,
        none) ∧
    (rebuildHot c3Mini.page
        (c3Mini.page.records.filter fun r => r.ref_flag == 1)).records =
      (c3Mini.page.records.filter fun r => r.ref_flag == 1).map
        (fun r => { r with ref_flag := 0 }) ∧
    c3Mini.page.records.length =
      (c3Mini.page.records.filter fun r => r.ref_flag == 1).length +
      (c3Mini.page.records.filter fun r =>
        r.ref_flag == 0 && (r.type_flag == 0 || r.type_flag == 2)).length +
      (c3Mini.page.records.filter fun r =>
        r.ref_flag == 0 && (r.type_flag == 1 || r.type_flag == 3)).length :=
  C3_merge_no_split c3Mini emptyLeafDisk 1 c3Leaf2 (by decide) (by decide)
    (by decide) (by decide) (by decide) (by decide) (by decide)

end BfTreeCheck
